import Mathlib

/-!
# Verification of the Nelder–Mead simplex step engine and its memoization cache

Shallow embedding of `src/nm.js` and `src/plain-memorize.js`.

Modelling conventions:
* A vertex (`Array<Number>` in the source) is a `List ℚ`; JavaScript numbers are
  modelled as exact rationals.
* `Array.prototype.sort` with the comparator `(a, b) => measure(a) - measure(b)`
  is a stable ascending sort by `measure`; it is modelled by
  `List.insertionSort (fun x y => measure x ≤ measure y)`, which is the stable
  sort with that ordering.
* `vertices.splice(vertices.length - 1, 1, x)` (replace the last element by `x`)
  is `vs.dropLast ++ [x]`.
* `vertices.slice(1).map(f)` followed by `vertices.unshift(best)` is
  `best :: vs.tail.map f`.
* mathjs `m.add`/`m.subtract` on equal-length vectors are elementwise `zipWith`;
  `m.multiply scalar vector` is an elementwise scalar product; `m.mean rows 0`
  is the columnwise mean.
* A fallible evaluator (one that may throw, or report an error to its node-style
  callback) is a function into `Except ε ℚ`; evaluators are deterministic, as the
  spec's data model demands.
-/

/-- Elementwise vector addition (mathjs `m.add` on equal-length vectors). -/
def vecAdd (u v : List ℚ) : List ℚ := List.zipWith (· + ·) u v

/-- Elementwise vector subtraction (mathjs `m.subtract`). -/
def vecSub (u v : List ℚ) : List ℚ := List.zipWith (· - ·) u v

/-- Scalar times vector (mathjs `m.multiply c v`). -/
def smul (c : ℚ) (v : List ℚ) : List ℚ := v.map (fun x => c * x)

/-- Columnwise mean of a list of rows (mathjs `m.mean(rows, 0)`);
the source only applies it to a nonempty list of rows. -/
def meanCols (rows : List (List ℚ)) : List ℚ :=
  match rows with
  | [] => []
  | v :: rest => smul (1 / ((v :: rest).length : ℚ)) (rest.foldl vecAdd v)

/-! ## The synchronous step engine `nm` (src/nm.js lines 15–62)

The intermediate quantities of one `nm` call (`vertices` after the sort, `best`,
`worser`, `worst`, `centroid`, `mirror`, `expansion`, `contraction`) are given
standalone definitions so theorems can speak about them; `nm` itself is their
composition, following the source line by line. -/

/-- The sort `vertices.slice().sort((a, b) => measure(a) - measure(b))`: a stable
ascending sort of (a copy of) the vertices by their measured weight. -/
def nmSorted (measure : List ℚ → ℚ) (vertices : List (List ℚ)) : List (List ℚ) :=
  List.insertionSort (fun x y => measure x ≤ measure y) vertices

/-- The vertex `best = vertices[0]` after the sort. -/
def nmBest (measure : List ℚ → ℚ) (vertices : List (List ℚ)) : List ℚ :=
  (nmSorted measure vertices).getD 0 []

/-- The vertex `worser = vertices[vertices.length - 2]` after the sort. -/
def nmWorser (measure : List ℚ → ℚ) (vertices : List (List ℚ)) : List ℚ :=
  (nmSorted measure vertices).getD ((nmSorted measure vertices).length - 2) []

/-- The vertex `worst = vertices[vertices.length - 1]` after the sort. -/
def nmWorst (measure : List ℚ → ℚ) (vertices : List (List ℚ)) : List ℚ :=
  (nmSorted measure vertices).getD ((nmSorted measure vertices).length - 1) []

/-- The centroid of a sorted simplex:
`centroid = m.mean(vertices.slice(0, -1), 0)`, the columnwise mean of all
vertices except the worst (last) one. -/
def nmCentroidOf (vs : List (List ℚ)) : List ℚ :=
  meanCols vs.dropLast

/-- The reflection point of a sorted simplex:
`mirror = m.add(centroid, m.multiply(a, m.subtract(centroid, worst)))`. -/
def nmMirrorOf (a : ℚ) (vs : List (List ℚ)) : List ℚ :=
  vecAdd (nmCentroidOf vs) (smul a (vecSub (nmCentroidOf vs) (vs.getD (vs.length - 1) [])))

/-- The expansion point of a sorted simplex:
`expansion = m.add(centroid, m.multiply(g, m.subtract(mirror, centroid)))`. -/
def nmExpansionOf (a g : ℚ) (vs : List (List ℚ)) : List ℚ :=
  vecAdd (nmCentroidOf vs) (smul g (vecSub (nmMirrorOf a vs) (nmCentroidOf vs)))

/-- The contraction point of a sorted simplex:
`contraction = m.add(centroid, m.multiply(r, m.subtract(worst, centroid)))`. -/
def nmContractionOf (r : ℚ) (vs : List (List ℚ)) : List ℚ :=
  vecAdd (nmCentroidOf vs) (smul r (vecSub (vs.getD (vs.length - 1) []) (nmCentroidOf vs)))

/-- The centroid computed by one `nm` call. -/
def nmCentroid (measure : List ℚ → ℚ) (vertices : List (List ℚ)) : List ℚ :=
  nmCentroidOf (nmSorted measure vertices)

/-- The mirror computed by one `nm` call. -/
def nmMirror (measure : List ℚ → ℚ) (vertices : List (List ℚ)) (a : ℚ) : List ℚ :=
  nmMirrorOf a (nmSorted measure vertices)

/-- The expansion point computed by one `nm` call. -/
def nmExpansion (measure : List ℚ → ℚ) (vertices : List (List ℚ)) (a g : ℚ) : List ℚ :=
  nmExpansionOf a g (nmSorted measure vertices)

/-- The contraction point computed by one `nm` call. -/
def nmContraction (measure : List ℚ → ℚ) (vertices : List (List ℚ)) (r : ℚ) : List ℚ :=
  nmContractionOf r (nmSorted measure vertices)

/-- The decision tree of the step engine after the sort, shared verbatim by the
four scheduling variants of the source (src/nm.js lines 33–59): it receives the
sorted vertices `vs` and the three weights the source reads before branching,
and evaluates the mirror/expansion/contraction weights with `measure`. -/
def nmAfterSort (measure : List ℚ → ℚ) (a g r s : ℚ) (vs : List (List ℚ))
    (bestW worserW worstW : ℚ) : List (List ℚ) :=
  if bestW ≤ measure (nmMirrorOf a vs) ∧ measure (nmMirrorOf a vs) ≤ worserW then
    vs.dropLast ++ [nmMirrorOf a vs]
  else if measure (nmMirrorOf a vs) < bestW then
    if measure (nmExpansionOf a g vs) < measure (nmMirrorOf a vs) then
      vs.dropLast ++ [nmExpansionOf a g vs]
    else vs.dropLast ++ [nmMirrorOf a vs]
  else
    if measure (nmContractionOf r vs) < worstW then vs.dropLast ++ [nmContractionOf r vs]
    else
      vs.getD 0 [] ::
        vs.tail.map (fun v => vecAdd (vs.getD 0 []) (smul s (vecSub v (vs.getD 0 []))))

/-- One synchronous Nelder–Mead step (`nm`, src/nm.js lines 15–62): sort the
vertices by weight, read the weights of `best`, `worser` and `worst`, then run
the reflect/expand/contract/shrink decision tree. -/
def nm (vertices : List (List ℚ)) (measure : List ℚ → ℚ)
    (a : ℚ := 1) (g : ℚ := 2) (r : ℚ := 1/2) (s : ℚ := 1/2) : List (List ℚ) :=
  nmAfterSort measure a g r s (nmSorted measure vertices)
    (measure (nmBest measure vertices))
    (measure (nmWorser measure vertices))
    (measure (nmWorst measure vertices))

/-- The source's shrink guard: `nm` shrinks exactly when the mirror-accept test
fails, the expansion test fails and the contraction point is not strictly better
than the worst vertex (src/nm.js lines 33, 35, 50). -/
def nmShrinks (vertices : List (List ℚ)) (measure : List ℚ → ℚ) (a r : ℚ) : Prop :=
  ¬(measure (nmBest measure vertices) ≤ measure (nmMirror measure vertices a) ∧
      measure (nmMirror measure vertices a) ≤ measure (nmWorser measure vertices)) ∧
  ¬(measure (nmMirror measure vertices a) < measure (nmBest measure vertices)) ∧
  ¬(measure (nmContraction measure vertices r) < measure (nmWorst measure vertices))

/-- The function `nm` unfolded to its decision tree, phrased with the named
intermediate quantities. -/
theorem nm_unfold (vertices : List (List ℚ)) (measure : List ℚ → ℚ) (a g r s : ℚ) :
    nm vertices measure a g r s =
      if measure (nmBest measure vertices) ≤ measure (nmMirror measure vertices a) ∧
          measure (nmMirror measure vertices a) ≤ measure (nmWorser measure vertices) then
        (nmSorted measure vertices).dropLast ++ [nmMirror measure vertices a]
      else if measure (nmMirror measure vertices a) < measure (nmBest measure vertices) then
        if measure (nmExpansion measure vertices a g) < measure (nmMirror measure vertices a) then
          (nmSorted measure vertices).dropLast ++ [nmExpansion measure vertices a g]
        else
          (nmSorted measure vertices).dropLast ++ [nmMirror measure vertices a]
      else
        if measure (nmContraction measure vertices r) < measure (nmWorst measure vertices) then
          (nmSorted measure vertices).dropLast ++ [nmContraction measure vertices r]
        else
          nmBest measure vertices ::
            (nmSorted measure vertices).tail.map (fun v =>
              vecAdd (nmBest measure vertices)
                (smul s (vecSub v (nmBest measure vertices)))) :=
  rfl

/-- The objective of the spec's concrete scenario: `weight(v) = v[0]^2`. -/
def sqObj (v : List ℚ) : ℚ := v.getD 0 0 ^ 2

/-- C1: for the simplex `[[0],[10]]` with objective `weight(v) = v[0]^2` and the
default parameters `a=1, g=2, r=0.5, s=0.5`, one `nm` call computes
centroid `[0]` and mirror `[-10]`, takes the contraction branch (mirror-accept
and expansion guards both fail) with contraction point `[5]` of weight
`25 < 100 = weight(worst)`, and returns `[[0],[5]]`. -/
theorem nm_concrete_scenario :
    nmCentroid sqObj [[0], [10]] = [0] ∧
    nmMirror sqObj [[0], [10]] 1 = [-10] ∧
    ¬(sqObj (nmBest sqObj [[0], [10]]) ≤ sqObj (nmMirror sqObj [[0], [10]] 1) ∧
        sqObj (nmMirror sqObj [[0], [10]] 1) ≤ sqObj (nmWorser sqObj [[0], [10]])) ∧
    ¬(sqObj (nmMirror sqObj [[0], [10]] 1) < sqObj (nmBest sqObj [[0], [10]])) ∧
    nmContraction sqObj [[0], [10]] (1/2) = [5] ∧
    sqObj (nmContraction sqObj [[0], [10]] (1/2)) = 25 ∧
    sqObj (nmWorst sqObj [[0], [10]]) = 100 ∧
    sqObj (nmContraction sqObj [[0], [10]] (1/2)) < sqObj (nmWorst sqObj [[0], [10]]) ∧
    nm [[0], [10]] sqObj 1 2 (1/2) (1/2) = [[0], [5]] := by
  norm_num [nm, nmAfterSort, nmSorted, nmBest, nmWorser, nmWorst, nmCentroid, nmCentroidOf,
    nmMirror, nmMirrorOf, nmExpansion, nmExpansionOf, nmContraction, nmContractionOf,
    meanCols, vecAdd, vecSub, smul, sqObj, List.insertionSort, List.orderedInsert]

/-- The decision tree never changes the number of vertices: every branch
replaces the worst vertex (or maps the tail and re-adds the best one). -/
theorem nmAfterSort_length (measure : List ℚ → ℚ) (a g r s : ℚ) (vs : List (List ℚ))
    (bestW worserW worstW : ℚ) (h : 1 ≤ vs.length) :
    (nmAfterSort measure a g r s vs bestW worserW worstW).length = vs.length := by
  unfold nmAfterSort
  split_ifs <;>
    simp only [List.length_append, List.length_dropLast, List.length_cons,
      List.length_map, List.length_tail, List.length_nil] <;>
    omega

/-- C2: for every input simplex with at least two vertices (`N ≥ 1`) and every
evaluator, `nm` returns exactly as many vertices as it was given, whichever of
the four branches is taken. -/
theorem nm_count_invariant (vertices : List (List ℚ)) (measure : List ℚ → ℚ)
    (a g r s : ℚ) (h : 2 ≤ vertices.length) :
    (nm vertices measure a g r s).length = vertices.length := by
  have hs : (nmSorted measure vertices).length = vertices.length :=
    (List.perm_insertionSort _ vertices).length_eq
  calc (nm vertices measure a g r s).length
      = (nmSorted measure vertices).length :=
        nmAfterSort_length measure a g r s (nmSorted measure vertices)
          (measure (nmBest measure vertices)) (measure (nmWorser measure vertices))
          (measure (nmWorst measure vertices)) (by omega)
    _ = vertices.length := hs

/-- Witness for `nm_count_invariant` at the concrete scenario input. -/
theorem nm_count_invariant_witness :
    (nm [[0], [10]] sqObj 1 2 (1/2) (1/2)).length = ([[0], [10]] : List (List ℚ)).length :=
  nm_count_invariant [[0], [10]] sqObj 1 2 (1/2) (1/2) (by decide)

/-- The first element of a list of length at least two survives `dropLast`. -/
theorem getD_zero_mem_dropLast (l : List (List ℚ)) (h : 2 ≤ l.length) :
    l.getD 0 [] ∈ l.dropLast := by
  match l with
  | [] => simp at h
  | [x] => simp at h
  | x :: y :: t =>
    rw [List.dropLast_cons₂]
    exact List.mem_cons_self x _

/-- A `getD` at an index below the length is a member. -/
theorem getD_mem_of_lt (l : List (List ℚ)) (i : Nat) (h : i < l.length) :
    l.getD i [] ∈ l := by
  rw [List.getD_eq_getElem l [] h]
  exact List.getElem_mem h

/-- The head of the weight-sorted list has minimal weight among the input
vertices. -/
theorem nmBest_min (measure : List ℚ → ℚ) (vertices : List (List ℚ)) :
    ∀ v ∈ vertices, measure (nmBest measure vertices) ≤ measure v := by
  haveI : IsTotal (List ℚ) (fun x y => measure x ≤ measure y) := ⟨fun a b => le_total _ _⟩
  haveI : IsTrans (List ℚ) (fun x y => measure x ≤ measure y) := ⟨fun a b c => le_trans⟩
  have hsorted : List.Sorted (fun x y => measure x ≤ measure y) (nmSorted measure vertices) :=
    List.sorted_insertionSort _ vertices
  intro v hv
  have hv' : v ∈ nmSorted measure vertices :=
    (List.perm_insertionSort _ vertices).mem_iff.mpr hv
  cases hvs : nmSorted measure vertices with
  | nil => rw [hvs] at hv'; simp at hv'
  | cons b rest =>
    have hbest : nmBest measure vertices = b := by rw [nmBest, hvs]; rfl
    rw [hvs] at hv' hsorted
    rw [hbest]
    rcases List.mem_cons.mp hv' with hvb | hvr
    · subst hvb; exact le_rfl
    · exact List.rel_of_sorted_cons hsorted v hvr

/-- C3: the weight-minimal vertex of the input simplex (`best` after the sort)
is a member of the input; it is kept in the output whenever the mirror-accept,
expansion or contraction branch is taken; and when the shrink branch is taken
the output is exactly `best` followed by `best + s*(v - best)` for every other
sorted vertex `v`, so `best` itself is kept unchanged as the shrink anchor. -/
theorem nm_best_preserved (vertices : List (List ℚ)) (measure : List ℚ → ℚ)
    (a g r s : ℚ) (h : 2 ≤ vertices.length) :
    nmBest measure vertices ∈ vertices ∧
    (∀ v ∈ vertices, measure (nmBest measure vertices) ≤ measure v) ∧
    (¬nmShrinks vertices measure a r →
      nmBest measure vertices ∈ nm vertices measure a g r s) ∧
    (nmShrinks vertices measure a r →
      nm vertices measure a g r s =
        nmBest measure vertices ::
          (nmSorted measure vertices).tail.map (fun v =>
            vecAdd (nmBest measure vertices)
              (smul s (vecSub v (nmBest measure vertices))))) := by
  have hlen : (nmSorted measure vertices).length = vertices.length :=
    (List.perm_insertionSort _ vertices).length_eq
  have hmem : nmBest measure vertices ∈ nmSorted measure vertices :=
    getD_mem_of_lt _ 0 (by omega)
  refine ⟨(List.perm_insertionSort _ vertices).subset hmem, nmBest_min measure vertices, ?_, ?_⟩
  · intro hns
    rw [nm_unfold]
    split_ifs with h1 h2 h3 h4
    · exact List.mem_append_left _ (getD_zero_mem_dropLast _ (by omega))
    · exact List.mem_append_left _ (getD_zero_mem_dropLast _ (by omega))
    · exact List.mem_append_left _ (getD_zero_mem_dropLast _ (by omega))
    · exact List.mem_append_left _ (getD_zero_mem_dropLast _ (by omega))
    · exact absurd ⟨h1, h2, h4⟩ hns
  · intro hs
    rw [nm_unfold, if_neg hs.1, if_neg hs.2.1, if_neg hs.2.2]

/-- Witness for `nm_best_preserved` at the concrete scenario input: the best
vertex `[0]` is in the input and survives the (contraction) step. -/
theorem nm_best_preserved_witness :
    nmBest sqObj [[0], [10]] ∈ ([[0], [10]] : List (List ℚ)) ∧
    nmBest sqObj [[0], [10]] ∈ nm [[0], [10]] sqObj 1 2 (1/2) (1/2) :=
  ⟨(nm_best_preserved [[0], [10]] sqObj 1 2 (1/2) (1/2) (by decide)).1,
   (nm_best_preserved [[0], [10]] sqObj 1 2 (1/2) (1/2) (by decide)).2.2.1
     (by norm_num [nmShrinks, nmSorted, nmBest, nmWorser, nmWorst, nmMirror, nmMirrorOf,
       nmCentroidOf, nmContraction, nmContractionOf, meanCols, vecAdd, vecSub, smul, sqObj,
       List.insertionSort, List.orderedInsert])⟩

/-- C4: the exact boundary inclusions of the branch selection: the mirror
replaces the worst vertex iff `weight(best) ≤ weight(mirror)` and
`weight(mirror) ≤ weight(worser)` (non-strict at both bounds); otherwise, if
`weight(mirror) < weight(best)` (strict), the expansion point replaces the
worst iff `weight(expansion) < weight(mirror)` (strict; else the mirror does);
otherwise the contraction point replaces the worst iff
`weight(contraction) < weight(worst)` (strict), and shrink happens otherwise. -/
theorem nm_branch_boundaries (vertices : List (List ℚ)) (measure : List ℚ → ℚ)
    (a g r s : ℚ) :
    ((measure (nmBest measure vertices) ≤ measure (nmMirror measure vertices a) ∧
        measure (nmMirror measure vertices a) ≤ measure (nmWorser measure vertices)) →
      nm vertices measure a g r s =
        (nmSorted measure vertices).dropLast ++ [nmMirror measure vertices a]) ∧
    (¬(measure (nmBest measure vertices) ≤ measure (nmMirror measure vertices a) ∧
        measure (nmMirror measure vertices a) ≤ measure (nmWorser measure vertices)) →
      measure (nmMirror measure vertices a) < measure (nmBest measure vertices) →
      measure (nmExpansion measure vertices a g) < measure (nmMirror measure vertices a) →
      nm vertices measure a g r s =
        (nmSorted measure vertices).dropLast ++ [nmExpansion measure vertices a g]) ∧
    (¬(measure (nmBest measure vertices) ≤ measure (nmMirror measure vertices a) ∧
        measure (nmMirror measure vertices a) ≤ measure (nmWorser measure vertices)) →
      measure (nmMirror measure vertices a) < measure (nmBest measure vertices) →
      ¬(measure (nmExpansion measure vertices a g) < measure (nmMirror measure vertices a)) →
      nm vertices measure a g r s =
        (nmSorted measure vertices).dropLast ++ [nmMirror measure vertices a]) ∧
    (¬(measure (nmBest measure vertices) ≤ measure (nmMirror measure vertices a) ∧
        measure (nmMirror measure vertices a) ≤ measure (nmWorser measure vertices)) →
      ¬(measure (nmMirror measure vertices a) < measure (nmBest measure vertices)) →
      measure (nmContraction measure vertices r) < measure (nmWorst measure vertices) →
      nm vertices measure a g r s =
        (nmSorted measure vertices).dropLast ++ [nmContraction measure vertices r]) ∧
    (¬(measure (nmBest measure vertices) ≤ measure (nmMirror measure vertices a) ∧
        measure (nmMirror measure vertices a) ≤ measure (nmWorser measure vertices)) →
      ¬(measure (nmMirror measure vertices a) < measure (nmBest measure vertices)) →
      ¬(measure (nmContraction measure vertices r) < measure (nmWorst measure vertices)) →
      nm vertices measure a g r s =
        nmBest measure vertices ::
          (nmSorted measure vertices).tail.map (fun v =>
            vecAdd (nmBest measure vertices)
              (smul s (vecSub v (nmBest measure vertices))))) := by
  refine ⟨?_, ?_, ?_, ?_, ?_⟩
  · intro h1
    rw [nm_unfold, if_pos h1]
  · intro h1 h2 h3
    rw [nm_unfold, if_neg h1, if_pos h2, if_pos h3]
  · intro h1 h2 h3
    rw [nm_unfold, if_neg h1, if_pos h2, if_neg h3]
  · intro h1 h2 h3
    rw [nm_unfold, if_neg h1, if_neg h2, if_pos h3]
  · intro h1 h2 h3
    rw [nm_unfold, if_neg h1, if_neg h2, if_neg h3]

/-- Witness for `nm_branch_boundaries`: at the concrete scenario input the
contraction conjunct applies and determines the output. -/
theorem nm_branch_boundaries_witness :
    nm [[0], [10]] sqObj 1 2 (1/2) (1/2) =
      (nmSorted sqObj [[0], [10]]).dropLast ++ [nmContraction sqObj [[0], [10]] (1/2)] :=
  (nm_branch_boundaries [[0], [10]] sqObj 1 2 (1/2) (1/2)).2.2.2.1
    (by norm_num [nmSorted, nmBest, nmWorser, nmMirror, nmMirrorOf, nmCentroidOf,
      meanCols, vecAdd, vecSub, smul, sqObj, List.insertionSort, List.orderedInsert])
    (by norm_num [nmSorted, nmBest, nmMirror, nmMirrorOf, nmCentroidOf,
      meanCols, vecAdd, vecSub, smul, sqObj, List.insertionSort, List.orderedInsert])
    (by norm_num [nmSorted, nmWorst, nmContraction, nmContractionOf, nmCentroidOf,
      meanCols, vecAdd, vecSub, smul, sqObj, List.insertionSort, List.orderedInsert])

/-! ## The memoization cache (src/plain-memorize.js)

`memorize` (direct-return convention) and `nMemorize` (node-style completion
callback convention) each close over two maps, `returns` and `throws`.  The
closed-over mutable pair is modelled as an explicit state threaded through
calls; the maps are association lists (`Map.set` on a missing key is a cons,
`Map.has`/`Map.get` are `lookup`).  A call of the wrapped function is a state
transformer that also reports the list of invocations of the underlying
objective it performed (the call counter of the spec), and — for the callback
variant — the list of invocations of the chosen completion callback. -/

/-- The two caches closed over by a memoized wrapper: `returns` maps an
argument key to a cached successful result, `throws` to a captured failure. -/
structure MemoState (κ ε ρ : Type) where
  returns : List (κ × ρ)
  throws : List (κ × ε)

/-- The observable outcome of one call of the direct-return memoized wrapper:
the value returned (or failure re-raised), the cache state afterwards and the
invocations of the underlying objective performed by this call. -/
structure MemoResult (α κ ε ρ : Type) where
  result : Except ε ρ
  state : MemoState κ ε ρ
  invoked : List α

/-- One call of the wrapper produced by `memorize(fn, hash)`
(src/plain-memorize.js lines 9–31): check `throws`, then `returns`, then
invoke `fn`, caching a failure in `throws` and a success in `returns`. -/
def memorize {α κ ε ρ : Type} [BEq κ] (fn : α → Except ε ρ) (hash : α → κ)
    (st : MemoState κ ε ρ) (args : α) : MemoResult α κ ε ρ :=
  match st.throws.lookup (hash args) with
  | some e => { result := Except.error e, state := st, invoked := [] }
  | none =>
    match st.returns.lookup (hash args) with
    | some ret => { result := Except.ok ret, state := st, invoked := [] }
    | none =>
      match fn args with
      | Except.error e =>
        { result := Except.error e,
          state := { st with throws := (hash args, e) :: st.throws },
          invoked := [args] }
      | Except.ok ret =>
        { result := Except.ok ret,
          state := { st with returns := (hash args, ret) :: st.returns },
          invoked := [args] }

/-- The reset operation `memorized.refresh` of the direct-return variant
(src/plain-memorize.js lines 33–35): `returns.clear()` only — the `throws`
cache is left intact. -/
def memorizeRefresh {κ ε ρ : Type} (st : MemoState κ ε ρ) : MemoState κ ε ρ :=
  { st with returns := [] }

/-- A raw JavaScript argument as seen by the callback-convention wrapper: a
data value or a function (only its being a function matters to the wrapper). -/
inductive JSArg (β : Type) where
  | value (v : β)
  | func
deriving DecidableEq

/-- The test `"function" === typeof args[args.length - 1]`: whether the last raw
argument is a function (`false` for an empty argument list, as indexing past
the end yields `undefined` in the source). -/
def lastIsFunc {β : Type} (l : List (JSArg β)) : Bool :=
  match l.getLast? with
  | some JSArg.func => true
  | _ => false

/-- The split `if (...) callback = args.pop() else callback = noop`: the
argument list that remains for hashing and for the underlying objective,
paired with whether the caller-supplied trailing callback was chosen (`true`)
or the substituted no-op (`false`). -/
def splitCallbackArgs {β : Type} (l : List (JSArg β)) : List (JSArg β) × Bool :=
  if lastIsFunc l then (l.dropLast, true) else (l, false)

/-- The observable outcome of one call of the callback-convention memoized
wrapper: the invocations of the chosen completion callback (in order, each
carrying either a failure or a result), whether the chosen callback was the
caller-supplied one, the cache state afterwards, and the invocations of the
underlying objective. -/
structure NMemoResult (β κ ε ρ : Type) where
  delivered : List (Except ε ρ)
  usedSupplied : Bool
  state : MemoState κ ε ρ
  invoked : List (List (JSArg β))

/-- One call of the wrapper produced by `nMemorize(fn, hash)`
(src/plain-memorize.js lines 48–74): detect the trailing callback, check
`throws`, then `returns`, else invoke `fn`, whose once-invoked completion
callback caches and forwards the outcome.  The underlying objective is
deterministic and calls its completion callback exactly once, so it is
modelled as a function into `Except ε ρ`. -/
def nMemorize {β κ ε ρ : Type} [BEq κ] (fn : List (JSArg β) → Except ε ρ)
    (hash : List (JSArg β) → κ) (st : MemoState κ ε ρ) (rawArgs : List (JSArg β)) :
    NMemoResult β κ ε ρ :=
  match st.throws.lookup (hash (splitCallbackArgs rawArgs).1) with
  | some e =>
    { delivered := [Except.error e], usedSupplied := (splitCallbackArgs rawArgs).2,
      state := st, invoked := [] }
  | none =>
    match st.returns.lookup (hash (splitCallbackArgs rawArgs).1) with
    | some ret =>
      { delivered := [Except.ok ret], usedSupplied := (splitCallbackArgs rawArgs).2,
        state := st, invoked := [] }
    | none =>
      match fn (splitCallbackArgs rawArgs).1 with
      | Except.error e =>
        { delivered := [Except.error e], usedSupplied := (splitCallbackArgs rawArgs).2,
          state := { st with
            throws := (hash (splitCallbackArgs rawArgs).1, e) :: st.throws },
          invoked := [(splitCallbackArgs rawArgs).1] }
      | Except.ok ret =>
        { delivered := [Except.ok ret], usedSupplied := (splitCallbackArgs rawArgs).2,
          state := { st with
            returns := (hash (splitCallbackArgs rawArgs).1, ret) :: st.returns },
          invoked := [(splitCallbackArgs rawArgs).1] }

/-- The reset operation `memorized.refresh` of the callback variant (src/plain-memorize.js lines
76–79): `returns.clear(); throws.clear()` — both caches are emptied. -/
def nMemorizeRefresh {κ ε ρ : Type} (_st : MemoState κ ε ρ) : MemoState κ ε ρ :=
  { returns := [], throws := [] }

/-- Run a sequence of calls of the direct-return memoized wrapper, returning
the final cache state and the concatenated invocation log. -/
def runMemorize {α κ ε ρ : Type} [BEq κ] (fn : α → Except ε ρ) (hash : α → κ)
    (st : MemoState κ ε ρ) : List α → MemoState κ ε ρ × List α
  | [] => (st, [])
  | y :: ys =>
    let r := memorize fn hash st y
    let rest := runMemorize fn hash r.state ys
    (rest.1, r.invoked ++ rest.2)

/-- Run a sequence of calls of the callback-convention memoized wrapper,
returning the final cache state and the concatenated invocation log. -/
def runNMemorize {β κ ε ρ : Type} [BEq κ] (fn : List (JSArg β) → Except ε ρ)
    (hash : List (JSArg β) → κ) (st : MemoState κ ε ρ) :
    List (List (JSArg β)) → MemoState κ ε ρ × List (List (JSArg β))
  | [] => (st, [])
  | y :: ys =>
    let r := nMemorize fn hash st y
    let rest := runNMemorize fn hash r.state ys
    (rest.1, r.invoked ++ rest.2)

/-- A cached failure is replayed: state and call counter untouched. -/
theorem memorize_throw_hit {α κ ε ρ : Type} [BEq κ] (fn : α → Except ε ρ) (hash : α → κ)
    (st : MemoState κ ε ρ) (X : α) (e : ε) (h : st.throws.lookup (hash X) = some e) :
    memorize fn hash st X = ⟨Except.error e, st, []⟩ := by
  unfold memorize
  rw [h]

/-- A cached success is replayed: state and call counter untouched. -/
theorem memorize_return_hit {α κ ε ρ : Type} [BEq κ] (fn : α → Except ε ρ) (hash : α → κ)
    (st : MemoState κ ε ρ) (X : α) (ret : ρ) (hth : st.throws.lookup (hash X) = none)
    (hrt : st.returns.lookup (hash X) = some ret) :
    memorize fn hash st X = ⟨Except.ok ret, st, []⟩ := by
  unfold memorize
  rw [hth, hrt]

/-- A cache miss on a failing objective invokes it once and caches the error. -/
theorem memorize_miss_error {α κ ε ρ : Type} [BEq κ] (fn : α → Except ε ρ) (hash : α → κ)
    (st : MemoState κ ε ρ) (X : α) (e : ε) (hth : st.throws.lookup (hash X) = none)
    (hrt : st.returns.lookup (hash X) = none) (hfn : fn X = Except.error e) :
    memorize fn hash st X =
      ⟨Except.error e, ⟨st.returns, (hash X, e) :: st.throws⟩, [X]⟩ := by
  unfold memorize
  rw [hth, hrt, hfn]

/-- A cache miss on a succeeding objective invokes it once and caches the
result. -/
theorem memorize_miss_ok {α κ ε ρ : Type} [BEq κ] (fn : α → Except ε ρ) (hash : α → κ)
    (st : MemoState κ ε ρ) (X : α) (ret : ρ) (hth : st.throws.lookup (hash X) = none)
    (hrt : st.returns.lookup (hash X) = none) (hfn : fn X = Except.ok ret) :
    memorize fn hash st X =
      ⟨Except.ok ret, ⟨(hash X, ret) :: st.returns, st.throws⟩, [X]⟩ := by
  unfold memorize
  rw [hth, hrt, hfn]

/-- Looking up the key just consed onto an association list. -/
theorem lookup_cons_self {κ β : Type} [BEq κ] [LawfulBEq κ] (k : κ) (v : β)
    (l : List (κ × β)) : ((k, v) :: l).lookup k = some v := by
  simp [List.lookup_cons]

/-- Consing a different key does not change a lookup. -/
theorem lookup_cons_ne {κ β : Type} [BEq κ] [LawfulBEq κ] (a k : κ) (v : β)
    (l : List (κ × β)) (h : a ≠ k) : ((k, v) :: l).lookup a = l.lookup a := by
  have hb : (a == k) = false := beq_eq_false_iff_ne.mpr h
  simp [List.lookup_cons, hb]

/-- A call of the direct-return wrapper never removes a cached failure. -/
theorem memorize_throws_mono {α κ ε ρ : Type} [BEq κ] [LawfulBEq κ] (fn : α → Except ε ρ)
    (hash : α → κ) (st : MemoState κ ε ρ) (X : α) (k : κ) (e : ε)
    (h : st.throws.lookup k = some e) :
    (memorize fn hash st X).state.throws.lookup k = some e := by
  cases hth : st.throws.lookup (hash X) with
  | some e' => rw [memorize_throw_hit fn hash st X e' hth]; exact h
  | none =>
    cases hrt : st.returns.lookup (hash X) with
    | some r => rw [memorize_return_hit fn hash st X r hth hrt]; exact h
    | none =>
      cases hfn : fn X with
      | error e' =>
        rw [memorize_miss_error fn hash st X e' hth hrt hfn]
        have hne : k ≠ hash X := by
          intro hk
          rw [hk, hth] at h
          exact Option.noConfusion h
        show ((hash X, e') :: st.throws).lookup k = some e
        rw [lookup_cons_ne k (hash X) e' st.throws hne]
        exact h
      | ok r => rw [memorize_miss_ok fn hash st X r hth hrt hfn]; exact h

/-- A call of the direct-return wrapper invokes the objective for its own
arguments only, and only on a full cache miss. -/
theorem memorize_invoked_cases {α κ ε ρ : Type} [BEq κ] (fn : α → Except ε ρ)
    (hash : α → κ) (st : MemoState κ ε ρ) (X : α) :
    (memorize fn hash st X).invoked = [] ∨
    ((memorize fn hash st X).invoked = [X] ∧ st.throws.lookup (hash X) = none ∧
      st.returns.lookup (hash X) = none) := by
  cases hth : st.throws.lookup (hash X) with
  | some e' => left; rw [memorize_throw_hit fn hash st X e' hth]
  | none =>
    cases hrt : st.returns.lookup (hash X) with
    | some r => left; rw [memorize_return_hit fn hash st X r hth hrt]
    | none =>
      cases hfn : fn X with
      | error e' => right; rw [memorize_miss_error fn hash st X e' hth hrt hfn]; exact ⟨rfl, rfl, rfl⟩
      | ok r => right; rw [memorize_miss_ok fn hash st X r hth hrt hfn]; exact ⟨rfl, rfl, rfl⟩

/-- Across any sequence of calls of the direct-return wrapper, a cached failure
stays cached and its key is never re-invoked. -/
theorem runMemorize_thrown {α κ ε ρ : Type} [BEq κ] [LawfulBEq κ] (fn : α → Except ε ρ)
    (hash : α → κ) (k : κ) (e : ε) (ys : List α) :
    ∀ st : MemoState κ ε ρ, st.throws.lookup k = some e →
      (runMemorize fn hash st ys).1.throws.lookup k = some e ∧
      ∀ z ∈ (runMemorize fn hash st ys).2, hash z ≠ k := by
  induction ys with
  | nil =>
    intro st h
    exact ⟨h, by simp [runMemorize]⟩
  | cons y ys ih =>
    intro st h
    have h1 := memorize_throws_mono fn hash st y k e h
    obtain ⟨ih1, ih2⟩ := ih _ h1
    refine ⟨ih1, ?_⟩
    intro z hz
    simp only [runMemorize] at hz
    rcases List.mem_append.mp hz with hz1 | hz2
    · rcases memorize_invoked_cases fn hash st y with hinv | ⟨hinv, hthy, _⟩
      · rw [hinv] at hz1; exact absurd hz1 (List.not_mem_nil z)
      · rw [hinv] at hz1
        have hzy : z = y := by simpa using hz1
        subst hzy
        intro hk
        rw [hk, h] at hthy
        exact Option.noConfusion hthy
    · exact ih2 z hz2

/-- A cached failure is re-delivered to the callback: state and call counter
untouched. -/
theorem nMemorize_throw_hit {β κ ε ρ : Type} [BEq κ] (fn : List (JSArg β) → Except ε ρ)
    (hash : List (JSArg β) → κ) (st : MemoState κ ε ρ) (rawX : List (JSArg β)) (e : ε)
    (h : st.throws.lookup (hash (splitCallbackArgs rawX).1) = some e) :
    nMemorize fn hash st rawX =
      ⟨[Except.error e], (splitCallbackArgs rawX).2, st, []⟩ := by
  unfold nMemorize
  rw [h]

/-- A cached success is re-delivered to the callback: state and call counter
untouched. -/
theorem nMemorize_return_hit {β κ ε ρ : Type} [BEq κ] (fn : List (JSArg β) → Except ε ρ)
    (hash : List (JSArg β) → κ) (st : MemoState κ ε ρ) (rawX : List (JSArg β)) (ret : ρ)
    (hth : st.throws.lookup (hash (splitCallbackArgs rawX).1) = none)
    (hrt : st.returns.lookup (hash (splitCallbackArgs rawX).1) = some ret) :
    nMemorize fn hash st rawX =
      ⟨[Except.ok ret], (splitCallbackArgs rawX).2, st, []⟩ := by
  unfold nMemorize
  rw [hth, hrt]

/-- A cache miss on a failing objective invokes it once, caches the error and
delivers it. -/
theorem nMemorize_miss_error {β κ ε ρ : Type} [BEq κ] (fn : List (JSArg β) → Except ε ρ)
    (hash : List (JSArg β) → κ) (st : MemoState κ ε ρ) (rawX : List (JSArg β)) (e : ε)
    (hth : st.throws.lookup (hash (splitCallbackArgs rawX).1) = none)
    (hrt : st.returns.lookup (hash (splitCallbackArgs rawX).1) = none)
    (hfn : fn (splitCallbackArgs rawX).1 = Except.error e) :
    nMemorize fn hash st rawX =
      ⟨[Except.error e], (splitCallbackArgs rawX).2,
        ⟨st.returns, (hash (splitCallbackArgs rawX).1, e) :: st.throws⟩,
        [(splitCallbackArgs rawX).1]⟩ := by
  unfold nMemorize
  rw [hth, hrt, hfn]

/-- A cache miss on a succeeding objective invokes it once, caches the result
and delivers it. -/
theorem nMemorize_miss_ok {β κ ε ρ : Type} [BEq κ] (fn : List (JSArg β) → Except ε ρ)
    (hash : List (JSArg β) → κ) (st : MemoState κ ε ρ) (rawX : List (JSArg β)) (ret : ρ)
    (hth : st.throws.lookup (hash (splitCallbackArgs rawX).1) = none)
    (hrt : st.returns.lookup (hash (splitCallbackArgs rawX).1) = none)
    (hfn : fn (splitCallbackArgs rawX).1 = Except.ok ret) :
    nMemorize fn hash st rawX =
      ⟨[Except.ok ret], (splitCallbackArgs rawX).2,
        ⟨(hash (splitCallbackArgs rawX).1, ret) :: st.returns, st.throws⟩,
        [(splitCallbackArgs rawX).1]⟩ := by
  unfold nMemorize
  rw [hth, hrt, hfn]

/-- A call of the callback wrapper never removes a cached failure. -/
theorem nMemorize_throws_mono {β κ ε ρ : Type} [BEq κ] [LawfulBEq κ]
    (fn : List (JSArg β) → Except ε ρ) (hash : List (JSArg β) → κ)
    (st : MemoState κ ε ρ) (rawX : List (JSArg β)) (k : κ) (e : ε)
    (h : st.throws.lookup k = some e) :
    (nMemorize fn hash st rawX).state.throws.lookup k = some e := by
  cases hth : st.throws.lookup (hash (splitCallbackArgs rawX).1) with
  | some e' => rw [nMemorize_throw_hit fn hash st rawX e' hth]; exact h
  | none =>
    cases hrt : st.returns.lookup (hash (splitCallbackArgs rawX).1) with
    | some r => rw [nMemorize_return_hit fn hash st rawX r hth hrt]; exact h
    | none =>
      cases hfn : fn (splitCallbackArgs rawX).1 with
      | error e' =>
        rw [nMemorize_miss_error fn hash st rawX e' hth hrt hfn]
        have hne : k ≠ hash (splitCallbackArgs rawX).1 := by
          intro hk
          rw [hk, hth] at h
          exact Option.noConfusion h
        show ((hash (splitCallbackArgs rawX).1, e') :: st.throws).lookup k = some e
        rw [lookup_cons_ne k (hash (splitCallbackArgs rawX).1) e' st.throws hne]
        exact h
      | ok r => rw [nMemorize_miss_ok fn hash st rawX r hth hrt hfn]; exact h

/-- A call of the callback wrapper invokes the objective for its own split
arguments only, and only on a full cache miss. -/
theorem nMemorize_invoked_cases {β κ ε ρ : Type} [BEq κ] (fn : List (JSArg β) → Except ε ρ)
    (hash : List (JSArg β) → κ) (st : MemoState κ ε ρ) (rawX : List (JSArg β)) :
    (nMemorize fn hash st rawX).invoked = [] ∨
    ((nMemorize fn hash st rawX).invoked = [(splitCallbackArgs rawX).1] ∧
      st.throws.lookup (hash (splitCallbackArgs rawX).1) = none ∧
      st.returns.lookup (hash (splitCallbackArgs rawX).1) = none) := by
  cases hth : st.throws.lookup (hash (splitCallbackArgs rawX).1) with
  | some e' => left; rw [nMemorize_throw_hit fn hash st rawX e' hth]
  | none =>
    cases hrt : st.returns.lookup (hash (splitCallbackArgs rawX).1) with
    | some r => left; rw [nMemorize_return_hit fn hash st rawX r hth hrt]
    | none =>
      cases hfn : fn (splitCallbackArgs rawX).1 with
      | error e' =>
        right; rw [nMemorize_miss_error fn hash st rawX e' hth hrt hfn]; exact ⟨rfl, rfl, rfl⟩
      | ok r =>
        right; rw [nMemorize_miss_ok fn hash st rawX r hth hrt hfn]; exact ⟨rfl, rfl, rfl⟩

/-- Across any sequence of calls of the callback wrapper, a cached failure
stays cached and its key is never re-invoked. -/
theorem runNMemorize_thrown {β κ ε ρ : Type} [BEq κ] [LawfulBEq κ]
    (fn : List (JSArg β) → Except ε ρ) (hash : List (JSArg β) → κ) (k : κ) (e : ε)
    (ys : List (List (JSArg β))) :
    ∀ st : MemoState κ ε ρ, st.throws.lookup k = some e →
      (runNMemorize fn hash st ys).1.throws.lookup k = some e ∧
      ∀ z ∈ (runNMemorize fn hash st ys).2, hash z ≠ k := by
  induction ys with
  | nil =>
    intro st h
    exact ⟨h, by simp [runNMemorize]⟩
  | cons y ys ih =>
    intro st h
    have h1 := nMemorize_throws_mono fn hash st y k e h
    obtain ⟨ih1, ih2⟩ := ih _ h1
    refine ⟨ih1, ?_⟩
    intro z hz
    simp only [runNMemorize] at hz
    rcases List.mem_append.mp hz with hz1 | hz2
    · rcases nMemorize_invoked_cases fn hash st y with hinv | ⟨hinv, hthy, _⟩
      · rw [hinv] at hz1; exact absurd hz1 (List.not_mem_nil z)
      · rw [hinv] at hz1
        have hzy : z = (splitCallbackArgs y).1 := by simpa using hz1
        subst hzy
        intro hk
        rw [hk, h] at hthy
        exact Option.noConfusion hthy
    · exact ih2 z hz2

/-- C5: once the underlying objective has failed for arguments `X`, every later
call with arguments `X` — whatever other calls happen in between — fails again
with the captured error without invoking the underlying objective, for both the
direct-return wrapper `memorize` (which re-throws the cached error) and the
callback wrapper `nMemorize` (which delivers the cached error to the callback);
the underlying call count for `X` stays at one. -/
theorem memo_failure_replay {α β κ ε ρ : Type} [BEq κ] [LawfulBEq κ]
    (fn : α → Except ε ρ) (hash : α → κ) (st : MemoState κ ε ρ) (X : α) (e : ε)
    (hth : st.throws.lookup (hash X) = none) (hrt : st.returns.lookup (hash X) = none)
    (hfn : fn X = Except.error e)
    (fnN : List (JSArg β) → Except ε ρ) (hashN : List (JSArg β) → κ)
    (stN : MemoState κ ε ρ) (rawX : List (JSArg β)) (eN : ε)
    (hthN : stN.throws.lookup (hashN (splitCallbackArgs rawX).1) = none)
    (hrtN : stN.returns.lookup (hashN (splitCallbackArgs rawX).1) = none)
    (hfnN : fnN (splitCallbackArgs rawX).1 = Except.error eN) :
    (memorize fn hash st X).result = Except.error e ∧
    (memorize fn hash st X).invoked = [X] ∧
    (∀ ys,
      (memorize fn hash (runMemorize fn hash (memorize fn hash st X).state ys).1 X).result
          = Except.error e ∧
      (memorize fn hash (runMemorize fn hash (memorize fn hash st X).state ys).1 X).invoked
          = [] ∧
      ∀ z ∈ (runMemorize fn hash (memorize fn hash st X).state ys).2, hash z ≠ hash X) ∧
    (nMemorize fnN hashN stN rawX).delivered = [Except.error eN] ∧
    (nMemorize fnN hashN stN rawX).invoked = [(splitCallbackArgs rawX).1] ∧
    (∀ ys,
      (nMemorize fnN hashN
          (runNMemorize fnN hashN (nMemorize fnN hashN stN rawX).state ys).1 rawX).delivered
          = [Except.error eN] ∧
      (nMemorize fnN hashN
          (runNMemorize fnN hashN (nMemorize fnN hashN stN rawX).state ys).1 rawX).invoked
          = [] ∧
      ∀ z ∈ (runNMemorize fnN hashN (nMemorize fnN hashN stN rawX).state ys).2,
        hashN z ≠ hashN (splitCallbackArgs rawX).1) := by
  have h1 := memorize_miss_error fn hash st X e hth hrt hfn
  have hlk : (memorize fn hash st X).state.throws.lookup (hash X) = some e := by
    rw [h1]
    exact lookup_cons_self (hash X) e st.throws
  have h1N := nMemorize_miss_error fnN hashN stN rawX eN hthN hrtN hfnN
  have hlkN : (nMemorize fnN hashN stN rawX).state.throws.lookup
      (hashN (splitCallbackArgs rawX).1) = some eN := by
    rw [h1N]
    exact lookup_cons_self (hashN (splitCallbackArgs rawX).1) eN stN.throws
  refine ⟨by rw [h1], by rw [h1], ?_, by rw [h1N], by rw [h1N], ?_⟩
  · intro ys
    obtain ⟨hA, hB⟩ := runMemorize_thrown fn hash (hash X) e ys _ hlk
    rw [memorize_throw_hit fn hash _ X e hA]
    exact ⟨rfl, rfl, hB⟩
  · intro ys
    obtain ⟨hA, hB⟩ := runNMemorize_thrown fnN hashN (hashN (splitCallbackArgs rawX).1) eN ys _ hlkN
    rw [nMemorize_throw_hit fnN hashN _ rawX eN hA]
    exact ⟨rfl, rfl, hB⟩

/-- Witness for `memo_failure_replay`: a concrete always-failing objective,
first called on `0` from the empty cache, then re-called after the interleaved
call sequence `[1, 0]`. -/
theorem memo_failure_replay_witness :
    (memorize (fun _ : Nat => (Except.error 7 : Except Nat Nat)) (fun n => n)
        ⟨[], []⟩ 0).result = Except.error 7 ∧
    (memorize (fun _ : Nat => (Except.error 7 : Except Nat Nat)) (fun n => n)
        (runMemorize (fun _ => Except.error 7) (fun n => n)
          (memorize (fun _ => Except.error 7) (fun n => n) ⟨[], []⟩ 0).state [1, 0]).1
        0).invoked = [] ∧
    (nMemorize (fun _ : List (JSArg Unit) => (Except.error 7 : Except Nat Nat))
        (fun _ => 0) ⟨[], []⟩ []).delivered = [Except.error 7] := by
  have h := memo_failure_replay
    (fun _ : Nat => (Except.error 7 : Except Nat Nat)) (fun n => n) ⟨[], []⟩ 0 7
    rfl rfl rfl
    (fun _ : List (JSArg Unit) => (Except.error 7 : Except Nat Nat)) (fun _ => 0)
    ⟨[], []⟩ [] 7 rfl rfl rfl
  exact ⟨h.1, (h.2.2.1 [1, 0]).2.1, h.2.2.2.1⟩

/-- The second of two consecutive calls with the same arguments never invokes
the direct-return variant's underlying objective. -/
theorem memorize_twice_no_invoke {α κ ε ρ : Type} [BEq κ] [LawfulBEq κ]
    (fn : α → Except ε ρ) (hash : α → κ) (st : MemoState κ ε ρ) (X : α) :
    (memorize fn hash (memorize fn hash st X).state X).invoked = [] := by
  cases hth : st.throws.lookup (hash X) with
  | some e' =>
    rw [memorize_throw_hit fn hash st X e' hth, memorize_throw_hit fn hash st X e' hth]
  | none =>
    cases hrt : st.returns.lookup (hash X) with
    | some r =>
      rw [memorize_return_hit fn hash st X r hth hrt,
        memorize_return_hit fn hash st X r hth hrt]
    | none =>
      cases hfn : fn X with
      | error e' =>
        rw [memorize_miss_error fn hash st X e' hth hrt hfn]
        rw [memorize_throw_hit fn hash _ X e' (lookup_cons_self (hash X) e' st.throws)]
      | ok r =>
        rw [memorize_miss_ok fn hash st X r hth hrt hfn]
        show (memorize fn hash ⟨(hash X, r) :: st.returns, st.throws⟩ X).invoked = []
        rw [memorize_return_hit fn hash ⟨(hash X, r) :: st.returns, st.throws⟩ X r hth
          (lookup_cons_self (hash X) r st.returns)]

/-- The second of two consecutive calls with the same arguments never invokes
the callback variant's underlying objective. -/
theorem nMemorize_twice_no_invoke {β κ ε ρ : Type} [BEq κ] [LawfulBEq κ]
    (fn : List (JSArg β) → Except ε ρ) (hash : List (JSArg β) → κ)
    (st : MemoState κ ε ρ) (rawX : List (JSArg β)) :
    (nMemorize fn hash (nMemorize fn hash st rawX).state rawX).invoked = [] := by
  cases hth : st.throws.lookup (hash (splitCallbackArgs rawX).1) with
  | some e' =>
    rw [nMemorize_throw_hit fn hash st rawX e' hth, nMemorize_throw_hit fn hash st rawX e' hth]
  | none =>
    cases hrt : st.returns.lookup (hash (splitCallbackArgs rawX).1) with
    | some r =>
      rw [nMemorize_return_hit fn hash st rawX r hth hrt,
        nMemorize_return_hit fn hash st rawX r hth hrt]
    | none =>
      cases hfn : fn (splitCallbackArgs rawX).1 with
      | error e' =>
        rw [nMemorize_miss_error fn hash st rawX e' hth hrt hfn]
        rw [nMemorize_throw_hit fn hash _ rawX e'
          (lookup_cons_self (hash (splitCallbackArgs rawX).1) e' st.throws)]
      | ok r =>
        rw [nMemorize_miss_ok fn hash st rawX r hth hrt hfn]
        show (nMemorize fn hash
          ⟨(hash (splitCallbackArgs rawX).1, r) :: st.returns, st.throws⟩ rawX).invoked = []
        rw [nMemorize_return_hit fn hash
          ⟨(hash (splitCallbackArgs rawX).1, r) :: st.returns, st.throws⟩ rawX r hth
          (lookup_cons_self (hash (splitCallbackArgs rawX).1) r st.returns)]

/-- C6: two calls of a memoized wrapper with the same arguments invoke the
underlying objective at most once (both variants); the direct-return variant's
reset clears only the success cache (cached failures remain), so the next call
invokes the objective again provided no failure is cached for those arguments;
the callback variant's reset clears both caches, so the next call always
invokes the objective again. -/
theorem memo_cache_idempotent {α β κ ε ρ : Type} [BEq κ] [LawfulBEq κ]
    (fn : α → Except ε ρ) (hash : α → κ) (st : MemoState κ ε ρ) (X : α)
    (fnN : List (JSArg β) → Except ε ρ) (hashN : List (JSArg β) → κ)
    (stN : MemoState κ ε ρ) (rawX : List (JSArg β)) :
    (memorize fn hash st X).invoked.length +
        (memorize fn hash (memorize fn hash st X).state X).invoked.length ≤ 1 ∧
    (nMemorize fnN hashN stN rawX).invoked.length +
        (nMemorize fnN hashN (nMemorize fnN hashN stN rawX).state rawX).invoked.length ≤ 1 ∧
    memorizeRefresh st = ⟨[], st.throws⟩ ∧
    nMemorizeRefresh stN = ⟨[], []⟩ ∧
    (st.throws.lookup (hash X) = none →
      (memorize fn hash (memorizeRefresh st) X).invoked = [X]) ∧
    (nMemorize fnN hashN (nMemorizeRefresh stN) rawX).invoked
        = [(splitCallbackArgs rawX).1] := by
  refine ⟨?_, ?_, rfl, rfl, ?_, ?_⟩
  · rw [memorize_twice_no_invoke fn hash st X]
    rcases memorize_invoked_cases fn hash st X with hinv | ⟨hinv, _, _⟩ <;> rw [hinv] <;> simp
  · rw [nMemorize_twice_no_invoke fnN hashN stN rawX]
    rcases nMemorize_invoked_cases fnN hashN stN rawX with hinv | ⟨hinv, _, _⟩ <;>
      rw [hinv] <;> simp
  · intro hthX
    have hth' : (memorizeRefresh st).throws.lookup (hash X) = none := hthX
    have hrt' : (memorizeRefresh st).returns.lookup (hash X) = none := rfl
    cases hfn : fn X with
    | error e' => rw [memorize_miss_error fn hash _ X e' hth' hrt' hfn]
    | ok r => rw [memorize_miss_ok fn hash _ X r hth' hrt' hfn]
  · have hth' : (nMemorizeRefresh stN).throws.lookup (hashN (splitCallbackArgs rawX).1)
        = none := rfl
    have hrt' : (nMemorizeRefresh stN).returns.lookup (hashN (splitCallbackArgs rawX).1)
        = none := rfl
    cases hfn : fnN (splitCallbackArgs rawX).1 with
    | error e' => rw [nMemorize_miss_error fnN hashN _ rawX e' hth' hrt' hfn]
    | ok r => rw [nMemorize_miss_ok fnN hashN _ rawX r hth' hrt' hfn]

/-- Witness for `memo_cache_idempotent` at a concrete objective, argument and
cache state. -/
theorem memo_cache_idempotent_witness :
    (memorize (fun n : Nat => (Except.ok n : Except Unit Nat)) (fun n => n)
        ⟨[], []⟩ 0).invoked.length +
      (memorize (fun n : Nat => (Except.ok n : Except Unit Nat)) (fun n => n)
        (memorize (fun n : Nat => (Except.ok n : Except Unit Nat)) (fun n => n)
          ⟨[], []⟩ 0).state 0).invoked.length ≤ 1 ∧
    (memorize (fun n : Nat => (Except.ok n : Except Unit Nat)) (fun n => n)
        (memorizeRefresh ⟨[], []⟩) 0).invoked = [0] := by
  have h := memo_cache_idempotent
    (fun n : Nat => (Except.ok n : Except Unit Nat)) (fun n => n) ⟨[], []⟩ 0
    (fun _ : List (JSArg Unit) => (Except.ok 0 : Except Unit Nat)) (fun _ => 0)
    ⟨[], []⟩ []
  exact ⟨h.1, h.2.2.2.2.1 rfl⟩

/-- C7: every call of the callback-convention memoized wrapper invokes the
chosen completion callback exactly once, delivering either a failure or a
result (never both, never zero times), in each of the three paths — cached
failure, cached success and cache miss; and the chosen callback is the
caller-supplied trailing one exactly when the last raw argument is a function
(otherwise the substituted no-op). -/
theorem nMemorize_callback_exactly_once {β κ ε ρ : Type} [BEq κ]
    (fn : List (JSArg β) → Except ε ρ) (hash : List (JSArg β) → κ)
    (st : MemoState κ ε ρ) (rawArgs : List (JSArg β)) :
    (∃ x, (nMemorize fn hash st rawArgs).delivered = [x]) ∧
    (nMemorize fn hash st rawArgs).usedSupplied = lastIsFunc rawArgs := by
  have hsplit : (splitCallbackArgs rawArgs).2 = lastIsFunc rawArgs := by
    unfold splitCallbackArgs
    by_cases hlf : lastIsFunc rawArgs <;> simp [hlf]
  unfold nMemorize
  cases st.throws.lookup (hash (splitCallbackArgs rawArgs).1) with
  | some e => exact ⟨⟨Except.error e, rfl⟩, hsplit⟩
  | none =>
    cases st.returns.lookup (hash (splitCallbackArgs rawArgs).1) with
    | some r => exact ⟨⟨Except.ok r, rfl⟩, hsplit⟩
    | none =>
      cases fn (splitCallbackArgs rawArgs).1 with
      | error e => exact ⟨⟨Except.error e, rfl⟩, hsplit⟩
      | ok r => exact ⟨⟨Except.ok r, rfl⟩, hsplit⟩

/-! ## The future-based and callback-based step engines
(src/nm.js lines 75–127 and 142–220)

`nmAsync` first scores all input vertices concurrently into a `Map` keyed by
the vertex (`weights.set(vertex, await measureAsync(vertex))`), then sorts a
copy of the vertices by `weights.get` and runs the same decision tree, awaiting
the mirror and then exactly one of expansion/contraction.  With a
deterministic, never-failing evaluator the concurrent scoring is
order-independent, so the weights map is modelled as the association list of
`(vertex, weight)` pairs in input order, and an `await` of the evaluator is a
plain application.

`nmCallback` is modelled by its trace: the list of invocations of the final
completion callback, in order.  Each per-vertex measurement callback runs
synchronously (the evaluator invokes its completion callback exactly once,
deterministically — a function into `Except ε ℚ`); a failing measurement
invokes the completion callback with the error directly, a successful one
stores the weight and decrements the countdown `len`, and when `len` hits zero
the main step logic runs, chaining through the mirror and then exactly one of
expansion/contraction. -/

/-- The weights map built by scoring every input vertex:
`weights.set(vertex, weight)` for each vertex in order. -/
def asyncWeights (measure : List ℚ → ℚ) (vertices : List (List ℚ)) : List (List ℚ × ℚ) :=
  vertices.map (fun v => (v, measure v))

/-- The lookup `weights.get(v)`: look a vertex's weight up in the weights map (total with
a junk default, as the sources only look up vertices that were scored). -/
def asyncWt (wmap : List (List ℚ × ℚ)) (v : List ℚ) : ℚ :=
  (wmap.lookup v).getD 0

/-- The sort `vertices.slice().sort((a, b) => weights.get(a) - weights.get(b))`: the
stable ascending sort by looked-up weight used by `nmAsync` and `nmCallback`. -/
def sortByWeights (wmap : List (List ℚ × ℚ)) (vertices : List (List ℚ)) : List (List ℚ)  :=
  List.insertionSort (fun x y => asyncWt wmap x ≤ asyncWt wmap y) vertices

/-- One future-based Nelder–Mead step (`nmAsync`, src/nm.js lines 75–127) for a
deterministic never-failing evaluator: score all vertices into the weights map,
sort by looked-up weight, read the three pivot weights from the map, then run
the decision tree (mirror/expansion/contraction weights awaited directly). -/
def nmAsync (vertices : List (List ℚ)) (measure : List ℚ → ℚ)
    (a : ℚ := 1) (g : ℚ := 2) (r : ℚ := 1/2) (s : ℚ := 1/2) : List (List ℚ) :=
  nmAfterSort measure a g r s (sortByWeights (asyncWeights measure vertices) vertices)
    (asyncWt (asyncWeights measure vertices)
      ((sortByWeights (asyncWeights measure vertices) vertices).getD 0 []))
    (asyncWt (asyncWeights measure vertices)
      ((sortByWeights (asyncWeights measure vertices) vertices).getD
        ((sortByWeights (asyncWeights measure vertices) vertices).length - 2) []))
    (asyncWt (asyncWeights measure vertices)
      ((sortByWeights (asyncWeights measure vertices) vertices).getD
        ((sortByWeights (asyncWeights measure vertices) vertices).length - 1) []))

/-- The main step logic of `nmCallback` (src/nm.js lines 154–216), run once the
countdown hits zero, parametrised by the sorted vertices `vs` and the weight
lookup `wt`: measure the mirror, branch, possibly measure exactly one of
expansion/contraction, and invoke the completion callback once — with the
error if a measurement reports one, else with the updated simplex. -/
def cbMainSorted {ε : Type} (measureE : List ℚ → Except ε ℚ) (a g r s : ℚ)
    (wt : List ℚ → ℚ) (vs : List (List ℚ)) : List (Except ε (List (List ℚ))) :=
  match measureE (nmMirrorOf a vs) with
  | Except.error e => [Except.error e]
  | Except.ok mirrorW =>
    if wt (vs.getD 0 []) ≤ mirrorW ∧ mirrorW ≤ wt (vs.getD (vs.length - 2) []) then
      [Except.ok (vs.dropLast ++ [nmMirrorOf a vs])]
    else if mirrorW < wt (vs.getD 0 []) then
      match measureE (nmExpansionOf a g vs) with
      | Except.error e => [Except.error e]
      | Except.ok expansionW =>
        if expansionW < mirrorW then [Except.ok (vs.dropLast ++ [nmExpansionOf a g vs])]
        else [Except.ok (vs.dropLast ++ [nmMirrorOf a vs])]
    else
      match measureE (nmContractionOf r vs) with
      | Except.error e => [Except.error e]
      | Except.ok contractionW =>
        if contractionW < wt (vs.getD (vs.length - 1) []) then
          [Except.ok (vs.dropLast ++ [nmContractionOf r vs])]
        else
          [Except.ok (vs.getD 0 [] ::
            vs.tail.map (fun v => vecAdd (vs.getD 0 []) (smul s (vecSub v (vs.getD 0 [])))))]

/-- The main step logic of `nmCallback` applied to the weights map accumulated
by the initial scoring: sort the original vertices by looked-up weight, then
run `cbMainSorted`. -/
def cbMain {ε : Type} (measureE : List ℚ → Except ε ℚ) (a g r s : ℚ)
    (vertices : List (List ℚ)) (wmap : List (List ℚ × ℚ)) :
    List (Except ε (List (List ℚ))) :=
  cbMainSorted measureE a g r s (asyncWt wmap) (sortByWeights wmap vertices)

/-- The state of one `nmCallback` invocation while the initial measurements
run: the weights map so far, the countdown `len`, and the trace of completion
callback invocations so far. -/
structure CBState (ε : Type) where
  wmap : List (List ℚ × ℚ)
  len : Nat
  trace : List (Except ε (List (List ℚ)))

/-- The per-vertex measurement callback of `nmCallback` (src/nm.js lines
146–218): on error, invoke the completion callback with the error; on success,
record the weight, decrement `len`, and when it reaches zero run the main step
logic. -/
def cbStep {ε : Type} (measureE : List ℚ → Except ε ℚ) (a g r s : ℚ)
    (vertices : List (List ℚ)) (st : CBState ε) (v : List ℚ) : CBState ε :=
  match measureE v with
  | Except.error e => { st with trace := st.trace ++ [Except.error e] }
  | Except.ok w =>
    if st.len - 1 = 0 then
      { wmap := st.wmap ++ [(v, w)], len := st.len - 1,
        trace := st.trace ++ cbMain measureE a g r s vertices (st.wmap ++ [(v, w)]) }
    else
      { wmap := st.wmap ++ [(v, w)], len := st.len - 1, trace := st.trace }

/-- One callback-based Nelder–Mead step (`nmCallback`, src/nm.js lines
142–220), as the trace of completion callback invocations it performs:
`vertices.forEach(vertex => measureCallback(vertex, ...))` with synchronous
measurement callbacks is a left fold of `cbStep` over the vertices starting
from the empty map, countdown `vertices.length` and empty trace. -/
def nmCallback {ε : Type} (vertices : List (List ℚ)) (measureE : List ℚ → Except ε ℚ)
    (a : ℚ := 1) (g : ℚ := 2) (r : ℚ := 1/2) (s : ℚ := 1/2) :
    List (Except ε (List (List ℚ))) :=
  (vertices.foldl (cbStep measureE a g r s vertices) ⟨[], vertices.length, []⟩).trace

/-- Ordered insertion only compares the inserted element with list members, so
two orderings agreeing there insert identically. -/
theorem orderedInsert_congr {α : Type} {r₁ r₂ : α → α → Prop}
    [DecidableRel r₁] [DecidableRel r₂] (x : α) (l : List α)
    (h : ∀ y ∈ l, (r₁ x y ↔ r₂ x y)) :
    List.orderedInsert r₁ x l = List.orderedInsert r₂ x l := by
  induction l with
  | nil => rfl
  | cons b t ih =>
    simp only [List.orderedInsert]
    by_cases hb : r₁ x b
    · rw [if_pos hb, if_pos ((h b (List.mem_cons_self b t)).mp hb)]
    · rw [if_neg hb, if_neg (fun hb2 => hb ((h b (List.mem_cons_self b t)).mpr hb2)),
        ih (fun y hy => h y (List.mem_cons_of_mem b hy))]

/-- Insertion sort only compares list members, so two orderings agreeing on
members sort identically. -/
theorem insertionSort_congr {α : Type} {r₁ r₂ : α → α → Prop}
    [DecidableRel r₁] [DecidableRel r₂] (l : List α)
    (h : ∀ x ∈ l, ∀ y ∈ l, (r₁ x y ↔ r₂ x y)) :
    List.insertionSort r₁ l = List.insertionSort r₂ l := by
  induction l with
  | nil => rfl
  | cons b t ih =>
    simp only [List.insertionSort]
    rw [ih (fun x hx y hy =>
      h x (List.mem_cons_of_mem b hx) y (List.mem_cons_of_mem b hy))]
    apply orderedInsert_congr
    intro y hy
    have hy' : y ∈ t := (List.perm_insertionSort r₂ t).subset hy
    exact h b (List.mem_cons_self b t) y (List.mem_cons_of_mem b hy')

/-- Looking a scored vertex up in the weights map yields its weight. -/
theorem asyncWt_eq (measure : List ℚ → ℚ) (vertices : List (List ℚ)) (v : List ℚ)
    (h : v ∈ vertices) : asyncWt (asyncWeights measure vertices) v = measure v := by
  unfold asyncWt asyncWeights
  induction vertices with
  | nil => simp at h
  | cons x xs ih =>
    simp only [List.map_cons, List.lookup_cons]
    by_cases hx : v = x
    · subst hx; simp
    · have hbeq : (v == x) = false := by simp [hx]
      rw [hbeq]
      rcases List.mem_cons.mp h with hvx | hvm
      · exact absurd hvx hx
      · exact ih hvm

/-- Sorting by looked-up weights of the full scoring map coincides with the
synchronous sort that re-measures inside the comparator. -/
theorem sortByWeights_eq (measure : List ℚ → ℚ) (vertices : List (List ℚ)) :
    sortByWeights (asyncWeights measure vertices) vertices = nmSorted measure vertices := by
  unfold sortByWeights nmSorted
  apply insertionSort_congr
  intro x hx y hy
  rw [asyncWt_eq measure vertices x hx, asyncWt_eq measure vertices y hy]

/-- With a deterministic never-failing evaluator, scoring first and sorting by
the weights map gives the same step as the synchronous engine. -/
theorem nmAsync_eq_nm (vertices : List (List ℚ)) (measure : List ℚ → ℚ)
    (a g r s : ℚ) (h : vertices ≠ []) :
    nmAsync vertices measure a g r s = nm vertices measure a g r s := by
  have hlen : (nmSorted measure vertices).length = vertices.length :=
    (List.perm_insertionSort _ vertices).length_eq
  have hlen2 : (List.insertionSort (fun x y => measure x ≤ measure y) vertices).length
      = vertices.length := (List.perm_insertionSort _ vertices).length_eq
  have hpos : 0 < vertices.length := List.length_pos.mpr h
  have hb : (nmSorted measure vertices).getD 0 [] ∈ vertices :=
    (List.perm_insertionSort _ vertices).subset (getD_mem_of_lt _ 0 (by omega))
  have hwr : (nmSorted measure vertices).getD
      ((nmSorted measure vertices).length - 2) [] ∈ vertices :=
    (List.perm_insertionSort _ vertices).subset (getD_mem_of_lt _ _ (by omega))
  have hws : (nmSorted measure vertices).getD
      ((nmSorted measure vertices).length - 1) [] ∈ vertices :=
    (List.perm_insertionSort _ vertices).subset (getD_mem_of_lt _ _ (by omega))
  unfold nmAsync
  rw [sortByWeights_eq]
  rw [asyncWt_eq measure vertices _ hb, asyncWt_eq measure vertices _ hwr,
    asyncWt_eq measure vertices _ hws]
  rfl

/-- When every initial measurement succeeds, the fold over the vertices ends
with the countdown at zero and fires the main logic on the accumulated map. -/
theorem cbFold_all_ok {ε : Type} (measure : List ℚ → ℚ) (a g r s : ℚ)
    (vertices : List (List ℚ)) :
    ∀ (xs : List (List ℚ)) (w₀ : List (List ℚ × ℚ)) (t₀ : List (Except ε (List (List ℚ)))),
      xs ≠ [] →
      (xs.foldl (cbStep (fun v => Except.ok (measure v)) a g r s vertices)
          ⟨w₀, xs.length, t₀⟩).trace
        = t₀ ++ cbMain (fun v => Except.ok (measure v)) a g r s vertices
            (w₀ ++ xs.map (fun v => (v, measure v))) := by
  intro xs
  induction xs with
  | nil => intro w₀ t₀ hne; exact absurd rfl hne
  | cons x t ih =>
    intro w₀ t₀ _
    rw [List.foldl_cons]
    cases t with
    | nil => simp [cbStep]
    | cons y t' =>
      have hstep : cbStep (fun v => Except.ok (measure v)) a g r s vertices
          ⟨w₀, (x :: y :: t').length, t₀⟩ x
          = ⟨w₀ ++ [(x, measure x)], (y :: t').length, t₀⟩ := by
        simp [cbStep]
      rw [hstep, ih (w₀ ++ [(x, measure x)]) t₀ (List.cons_ne_nil y t')]
      simp [List.append_assoc]

/-- With a never-failing evaluator, the callback main logic delivers exactly
one successful completion carrying the decision tree's result. -/
theorem cbMainSorted_ok {ε : Type} (measure : List ℚ → ℚ) (a g r s : ℚ)
    (wt : List ℚ → ℚ) (vs : List (List ℚ))
    (hb : wt (vs.getD 0 []) = measure (vs.getD 0 []))
    (hwr : wt (vs.getD (vs.length - 2) []) = measure (vs.getD (vs.length - 2) []))
    (hws : wt (vs.getD (vs.length - 1) []) = measure (vs.getD (vs.length - 1) [])) :
    cbMainSorted (fun v => (Except.ok (measure v) : Except ε ℚ)) a g r s wt vs
      = [Except.ok (nmAfterSort measure a g r s vs (measure (vs.getD 0 []))
          (measure (vs.getD (vs.length - 2) [])) (measure (vs.getD (vs.length - 1) [])))] := by
  unfold cbMainSorted nmAfterSort
  dsimp only
  rw [hb, hwr, hws]
  split_ifs <;> rfl

/-- C8: for the same input simplex, parameters and deterministic never-failing
weight function, the simplex the future-based adapter resolves with and the
one simplex the callback adapter delivers to its completion callback both
equal the synchronous `nm` result, element for element. -/
theorem nm_adapters_agree {ε : Type} (vertices : List (List ℚ)) (measure : List ℚ → ℚ)
    (a g r s : ℚ) (h : vertices ≠ []) :
    nmAsync vertices measure a g r s = nm vertices measure a g r s ∧
    nmCallback vertices (fun v => (Except.ok (measure v) : Except ε ℚ)) a g r s
      = [Except.ok (nm vertices measure a g r s)] := by
  refine ⟨nmAsync_eq_nm vertices measure a g r s h, ?_⟩
  have hlen : (nmSorted measure vertices).length = vertices.length :=
    (List.perm_insertionSort _ vertices).length_eq
  have hlen2 : (List.insertionSort (fun x y => measure x ≤ measure y) vertices).length
      = vertices.length := (List.perm_insertionSort _ vertices).length_eq
  have hpos : 0 < vertices.length := List.length_pos.mpr h
  have hb : (nmSorted measure vertices).getD 0 [] ∈ vertices :=
    (List.perm_insertionSort _ vertices).subset (getD_mem_of_lt _ 0 (by omega))
  have hwr : (nmSorted measure vertices).getD
      ((nmSorted measure vertices).length - 2) [] ∈ vertices :=
    (List.perm_insertionSort _ vertices).subset (getD_mem_of_lt _ _ (by omega))
  have hws : (nmSorted measure vertices).getD
      ((nmSorted measure vertices).length - 1) [] ∈ vertices :=
    (List.perm_insertionSort _ vertices).subset (getD_mem_of_lt _ _ (by omega))
  unfold nmCallback
  rw [cbFold_all_ok measure a g r s vertices vertices [] [] h]
  simp only [List.nil_append]
  show cbMainSorted (fun v => (Except.ok (measure v) : Except ε ℚ)) a g r s
      (asyncWt (asyncWeights measure vertices))
      (sortByWeights (asyncWeights measure vertices) vertices)
    = [Except.ok (nm vertices measure a g r s)]
  rw [sortByWeights_eq]
  rw [cbMainSorted_ok measure a g r s (asyncWt (asyncWeights measure vertices))
    (nmSorted measure vertices)
    (asyncWt_eq measure vertices _ hb) (asyncWt_eq measure vertices _ hwr)
    (asyncWt_eq measure vertices _ hws)]
  rfl

/-- Witness for `nm_adapters_agree` at the concrete scenario input. -/
theorem nm_adapters_agree_witness :
    nmAsync [[0], [10]] sqObj 1 2 (1/2) (1/2) = nm [[0], [10]] sqObj 1 2 (1/2) (1/2) ∧
    nmCallback [[0], [10]] (fun v => (Except.ok (sqObj v) : Except Unit ℚ)) 1 2 (1/2) (1/2)
      = [Except.ok (nm [[0], [10]] sqObj 1 2 (1/2) (1/2))] :=
  nm_adapters_agree [[0], [10]] sqObj 1 2 (1/2) (1/2) (by simp)

/-! ## Failure propagation (src/nm.js: `nm` with a throwing evaluator, and
`nmCallback` with failing measurements) -/

/-- Whether a node-style outcome is a failure. -/
def isError {ε α : Type} : Except ε α → Bool
  | Except.error _ => true
  | Except.ok _ => false

/-- The weights the synchronous sort observes with a throwing evaluator: the
comparator `(a, b) => measure(a) - measure(b)` evaluates every vertex, so a
step with a failing vertex never reaches the branch logic; on the all-success
runs that do, the observed weight is the successful value (the junk default is
never observed). -/
def nmEwt {ε : Type} (measureE : List ℚ → Except ε ℚ) (v : List ℚ) : ℚ :=
  (measureE v).toOption.getD 0

/-- The sorted vertices of a fallible synchronous step, meaningful on
all-success runs. -/
def nmESorted {ε : Type} (measureE : List ℚ → Except ε ℚ)
    (vertices : List (List ℚ)) : List (List ℚ) :=
  List.insertionSort (fun x y => nmEwt measureE x ≤ nmEwt measureE y) vertices

/-- The sort comparator's evaluation of every vertex, left to right; the first
failure escapes (`vertices.slice().sort(...)` with a throwing `measure`). -/
def measureAll {ε : Type} (measureE : List ℚ → Except ε ℚ) :
    List (List ℚ) → Except ε (List ℚ)
  | [] => Except.ok []
  | v :: vs =>
    match measureE v with
    | Except.error e => Except.error e
    | Except.ok w =>
      match measureAll measureE vs with
      | Except.error e => Except.error e
      | Except.ok ws => Except.ok (w :: ws)

/-- One synchronous Nelder–Mead step with a throwing evaluator (`nm`,
src/nm.js lines 15–62, with exceptions modelled in `Except`): the sort
evaluates every vertex (any failure escapes), then the weights of `best`,
`worser`, `worst` and `mirror` are read, then the branch, evaluating at most
one of expansion/contraction.  A raised failure aborts the call; no partial
simplex exists. -/
def nmE {ε : Type} (vertices : List (List ℚ)) (measureE : List ℚ → Except ε ℚ)
    (a g r s : ℚ) : Except ε (List (List ℚ)) :=
  match measureAll measureE vertices with
  | Except.error e => Except.error e
  | Except.ok _ =>
    match measureE ((nmESorted measureE vertices).getD 0 []) with
    | Except.error e => Except.error e
    | Except.ok bestW =>
      match measureE ((nmESorted measureE vertices).getD
          ((nmESorted measureE vertices).length - 2) []) with
      | Except.error e => Except.error e
      | Except.ok worserW =>
        match measureE ((nmESorted measureE vertices).getD
            ((nmESorted measureE vertices).length - 1) []) with
        | Except.error e => Except.error e
        | Except.ok worstW =>
          match measureE (nmMirrorOf a (nmESorted measureE vertices)) with
          | Except.error e => Except.error e
          | Except.ok mirrorW =>
            if bestW ≤ mirrorW ∧ mirrorW ≤ worserW then
              Except.ok ((nmESorted measureE vertices).dropLast ++
                [nmMirrorOf a (nmESorted measureE vertices)])
            else if mirrorW < bestW then
              match measureE (nmExpansionOf a g (nmESorted measureE vertices)) with
              | Except.error e => Except.error e
              | Except.ok expansionW =>
                if expansionW < mirrorW then
                  Except.ok ((nmESorted measureE vertices).dropLast ++
                    [nmExpansionOf a g (nmESorted measureE vertices)])
                else
                  Except.ok ((nmESorted measureE vertices).dropLast ++
                    [nmMirrorOf a (nmESorted measureE vertices)])
            else
              match measureE (nmContractionOf r (nmESorted measureE vertices)) with
              | Except.error e => Except.error e
              | Except.ok contractionW =>
                if contractionW < worstW then
                  Except.ok ((nmESorted measureE vertices).dropLast ++
                    [nmContractionOf r (nmESorted measureE vertices)])
                else
                  Except.ok ((nmESorted measureE vertices).getD 0 [] ::
                    (nmESorted measureE vertices).tail.map (fun v =>
                      vecAdd ((nmESorted measureE vertices).getD 0 [])
                        (smul s (vecSub v ((nmESorted measureE vertices).getD 0 [])))))

/-- A failing full evaluation pass names a failing vertex. -/
theorem measureAll_error_mem {ε : Type} (measureE : List ℚ → Except ε ℚ)
    (l : List (List ℚ)) (e : ε) (h : measureAll measureE l = Except.error e) :
    ∃ v ∈ l, measureE v = Except.error e := by
  induction l with
  | nil => simp [measureAll] at h
  | cons x t ih =>
    cases hx : measureE x with
    | error e' =>
      simp only [measureAll, hx] at h
      injection h with h'
      exact ⟨x, List.mem_cons_self x t, by rw [hx, h']⟩
    | ok w =>
      simp only [measureAll, hx] at h
      cases ht : measureAll measureE t with
      | error e' =>
        rw [ht] at h
        injection h with h'
        obtain ⟨v, hv, hve⟩ := ih (by rw [ht, h'])
        exact ⟨v, List.mem_cons_of_mem x hv, hve⟩
      | ok ws => rw [ht] at h; exact Except.noConfusion h

/-- A successful full evaluation pass means every vertex succeeds. -/
theorem measureAll_ok_all {ε : Type} (measureE : List ℚ → Except ε ℚ)
    (l : List (List ℚ)) (ws : List ℚ) (h : measureAll measureE l = Except.ok ws) :
    ∀ v ∈ l, ∃ w, measureE v = Except.ok w := by
  induction l generalizing ws with
  | nil => intro v hv; simp at hv
  | cons x t ih =>
    intro v hv
    cases hx : measureE x with
    | error e' => simp only [measureAll, hx] at h; exact Except.noConfusion h
    | ok w =>
      simp only [measureAll, hx] at h
      cases ht : measureAll measureE t with
      | error e' => rw [ht] at h; exact Except.noConfusion h
      | ok ws' =>
        rcases List.mem_cons.mp hv with hvx | hvm
        · exact ⟨w, by rw [hvx, hx]⟩
        · exact ih ws' ht v hvm

/-- A successful fallible step returns a full-size simplex. -/
theorem nmE_ok_length {ε : Type} (vertices : List (List ℚ)) (measureE : List ℚ → Except ε ℚ)
    (a g r s : ℚ) (h : 2 ≤ vertices.length) (out : List (List ℚ))
    (hout : nmE vertices measureE a g r s = Except.ok out) :
    out.length = vertices.length := by
  have hslen : (nmESorted measureE vertices).length = vertices.length :=
    (List.perm_insertionSort _ vertices).length_eq
  unfold nmE at hout
  cases hma : measureAll measureE vertices with
  | error e => simp only [hma] at hout; exact Except.noConfusion hout
  | ok ws =>
  simp only [hma] at hout
  cases hbw : measureE ((nmESorted measureE vertices).getD 0 []) with
  | error e => simp only [hbw] at hout; exact Except.noConfusion hout
  | ok bestW =>
  simp only [hbw] at hout
  cases hwrw : measureE ((nmESorted measureE vertices).getD
      ((nmESorted measureE vertices).length - 2) []) with
  | error e => simp only [hwrw] at hout; exact Except.noConfusion hout
  | ok worserW =>
  simp only [hwrw] at hout
  cases hwsw : measureE ((nmESorted measureE vertices).getD
      ((nmESorted measureE vertices).length - 1) []) with
  | error e => simp only [hwsw] at hout; exact Except.noConfusion hout
  | ok worstW =>
  simp only [hwsw] at hout
  cases hmw : measureE (nmMirrorOf a (nmESorted measureE vertices)) with
  | error e => simp only [hmw] at hout; exact Except.noConfusion hout
  | ok mirrorW =>
  simp only [hmw] at hout
  by_cases hc1 : bestW ≤ mirrorW ∧ mirrorW ≤ worserW
  · rw [if_pos hc1] at hout
    injection hout with h'
    rw [← h']
    simp only [List.length_append, List.length_dropLast, List.length_cons, List.length_nil]
    omega
  · rw [if_neg hc1] at hout
    by_cases hc2 : mirrorW < bestW
    · rw [if_pos hc2] at hout
      cases hex : measureE (nmExpansionOf a g (nmESorted measureE vertices)) with
      | error e => simp only [hex] at hout; exact Except.noConfusion hout
      | ok expansionW =>
        simp only [hex] at hout
        by_cases hc3 : expansionW < mirrorW
        · rw [if_pos hc3] at hout
          injection hout with h'
          rw [← h']
          simp only [List.length_append, List.length_dropLast, List.length_cons, List.length_nil]
          omega
        · rw [if_neg hc3] at hout
          injection hout with h'
          rw [← h']
          simp only [List.length_append, List.length_dropLast, List.length_cons, List.length_nil]
          omega
    · rw [if_neg hc2] at hout
      cases hco : measureE (nmContractionOf r (nmESorted measureE vertices)) with
      | error e => simp only [hco] at hout; exact Except.noConfusion hout
      | ok contractionW =>
        simp only [hco] at hout
        by_cases hc4 : contractionW < worstW
        · rw [if_pos hc4] at hout
          injection hout with h'
          rw [← h']
          simp only [List.length_append, List.length_dropLast, List.length_cons, List.length_nil]
          omega
        · rw [if_neg hc4] at hout
          injection hout with h'
          rw [← h']
          simp only [List.length_cons, List.length_map, List.length_tail]
          omega

/-- A failing input vertex makes the fallible step fail with an evaluator
failure of some input vertex. -/
theorem nmE_error_of_input_failure {ε : Type} (vertices : List (List ℚ))
    (measureE : List ℚ → Except ε ℚ) (a g r s : ℚ) (v : List ℚ) (hv : v ∈ vertices)
    (e : ε) (he : measureE v = Except.error e) :
    ∃ e', nmE vertices measureE a g r s = Except.error e' ∧
      ∃ u ∈ vertices, measureE u = Except.error e' := by
  cases hma : measureAll measureE vertices with
  | error e' =>
    refine ⟨e', ?_, measureAll_error_mem measureE vertices e' hma⟩
    unfold nmE
    rw [hma]
  | ok ws =>
    exfalso
    obtain ⟨w, hw⟩ := measureAll_ok_all measureE vertices ws hma v hv
    rw [he] at hw
    exact Except.noConfusion hw

/-- Any failure surfaced by the fallible step is an evaluator failure at a
required evaluation point: an input vertex, the mirror, the expansion point or
the contraction point. -/
theorem nmE_error_source {ε : Type} (vertices : List (List ℚ))
    (measureE : List ℚ → Except ε ℚ) (a g r s : ℚ) (h : 2 ≤ vertices.length)
    (e : ε) (he : nmE vertices measureE a g r s = Except.error e) :
    ∃ v, measureE v = Except.error e ∧
      (v ∈ vertices ∨ v = nmMirrorOf a (nmESorted measureE vertices) ∨
        v = nmExpansionOf a g (nmESorted measureE vertices) ∨
        v = nmContractionOf r (nmESorted measureE vertices)) := by
  have hslen : (nmESorted measureE vertices).length = vertices.length :=
    (List.perm_insertionSort _ vertices).length_eq
  have hmem : ∀ i : Nat, i < (nmESorted measureE vertices).length →
      (nmESorted measureE vertices).getD i [] ∈ vertices := fun i hi =>
    (List.perm_insertionSort _ vertices).subset (getD_mem_of_lt _ i hi)
  unfold nmE at he
  cases hma : measureAll measureE vertices with
  | error e' =>
    simp only [hma] at he
    injection he with h'
    subst h'
    obtain ⟨v, hv, hve⟩ := measureAll_error_mem measureE vertices e' hma
    exact ⟨v, hve, Or.inl hv⟩
  | ok ws =>
  simp only [hma] at he
  cases hbw : measureE ((nmESorted measureE vertices).getD 0 []) with
  | error e' =>
    simp only [hbw] at he
    injection he with h'
    subst h'
    exact ⟨_, hbw, Or.inl (hmem 0 (by omega))⟩
  | ok bestW =>
  simp only [hbw] at he
  cases hwrw : measureE ((nmESorted measureE vertices).getD
      ((nmESorted measureE vertices).length - 2) []) with
  | error e' =>
    simp only [hwrw] at he
    injection he with h'
    subst h'
    exact ⟨_, hwrw, Or.inl (hmem _ (by omega))⟩
  | ok worserW =>
  simp only [hwrw] at he
  cases hwsw : measureE ((nmESorted measureE vertices).getD
      ((nmESorted measureE vertices).length - 1) []) with
  | error e' =>
    simp only [hwsw] at he
    injection he with h'
    subst h'
    exact ⟨_, hwsw, Or.inl (hmem _ (by omega))⟩
  | ok worstW =>
  simp only [hwsw] at he
  cases hmw : measureE (nmMirrorOf a (nmESorted measureE vertices)) with
  | error e' =>
    simp only [hmw] at he
    injection he with h'
    subst h'
    exact ⟨_, hmw, Or.inr (Or.inl rfl)⟩
  | ok mirrorW =>
  simp only [hmw] at he
  by_cases hc1 : bestW ≤ mirrorW ∧ mirrorW ≤ worserW
  · rw [if_pos hc1] at he
    exact Except.noConfusion he
  · rw [if_neg hc1] at he
    by_cases hc2 : mirrorW < bestW
    · rw [if_pos hc2] at he
      cases hex : measureE (nmExpansionOf a g (nmESorted measureE vertices)) with
      | error e' =>
        simp only [hex] at he
        injection he with h'
        subst h'
        exact ⟨_, hex, Or.inr (Or.inr (Or.inl rfl))⟩
      | ok expansionW =>
        simp only [hex] at he
        by_cases hc3 : expansionW < mirrorW
        · rw [if_pos hc3] at he; exact Except.noConfusion he
        · rw [if_neg hc3] at he; exact Except.noConfusion he
    · rw [if_neg hc2] at he
      cases hco : measureE (nmContractionOf r (nmESorted measureE vertices)) with
      | error e' =>
        simp only [hco] at he
        injection he with h'
        subst h'
        exact ⟨_, hco, Or.inr (Or.inr (Or.inr rfl))⟩
      | ok contractionW =>
        simp only [hco] at he
        by_cases hc4 : contractionW < worstW
        · rw [if_pos hc4] at he; exact Except.noConfusion he
        · rw [if_neg hc4] at he; exact Except.noConfusion he

/-- Every completion delivered by the callback main logic is either an
evaluator failure passed through intact, or a full-size simplex. -/
theorem cbMain_entries {ε : Type} (measureE : List ℚ → Except ε ℚ) (a g r s : ℚ)
    (vertices : List (List ℚ)) (wmap : List (List ℚ × ℚ)) (h : 1 ≤ vertices.length) :
    ∀ x ∈ cbMain measureE a g r s vertices wmap,
      (∃ e, x = Except.error e ∧ ∃ v, measureE v = Except.error e) ∨
      (∃ out, x = Except.ok out ∧ out.length = vertices.length) := by
  have hslen : (sortByWeights wmap vertices).length = vertices.length :=
    (List.perm_insertionSort _ vertices).length_eq
  intro x hx
  unfold cbMain cbMainSorted at hx
  cases hm : measureE (nmMirrorOf a (sortByWeights wmap vertices)) with
  | error e =>
    simp only [hm] at hx
    have hxe : x = Except.error e := by simpa using hx
    exact Or.inl ⟨e, hxe, _, hm⟩
  | ok mirrorW =>
  simp only [hm] at hx
  by_cases hc1 : asyncWt wmap ((sortByWeights wmap vertices).getD 0 []) ≤ mirrorW ∧
      mirrorW ≤ asyncWt wmap ((sortByWeights wmap vertices).getD
        ((sortByWeights wmap vertices).length - 2) [])
  · rw [if_pos hc1] at hx
    have hxe := List.mem_singleton.mp hx
    refine Or.inr ⟨_, hxe, ?_⟩
    simp only [List.length_append, List.length_dropLast, List.length_cons, List.length_nil]
    omega
  · rw [if_neg hc1] at hx
    by_cases hc2 : mirrorW < asyncWt wmap ((sortByWeights wmap vertices).getD 0 [])
    · rw [if_pos hc2] at hx
      cases hex : measureE (nmExpansionOf a g (sortByWeights wmap vertices)) with
      | error e =>
        simp only [hex] at hx
        have hxe : x = Except.error e := by simpa using hx
        exact Or.inl ⟨e, hxe, _, hex⟩
      | ok expansionW =>
        simp only [hex] at hx
        by_cases hc3 : expansionW < mirrorW
        · rw [if_pos hc3] at hx
          have hxe := List.mem_singleton.mp hx
          refine Or.inr ⟨_, hxe, ?_⟩
          simp only [List.length_append, List.length_dropLast, List.length_cons,
            List.length_nil]
          omega
        · rw [if_neg hc3] at hx
          have hxe := List.mem_singleton.mp hx
          refine Or.inr ⟨_, hxe, ?_⟩
          simp only [List.length_append, List.length_dropLast, List.length_cons,
            List.length_nil]
          omega
    · rw [if_neg hc2] at hx
      cases hco : measureE (nmContractionOf r (sortByWeights wmap vertices)) with
      | error e =>
        simp only [hco] at hx
        have hxe : x = Except.error e := by simpa using hx
        exact Or.inl ⟨e, hxe, _, hco⟩
      | ok contractionW =>
        simp only [hco] at hx
        by_cases hc4 : contractionW < asyncWt wmap ((sortByWeights wmap vertices).getD
            ((sortByWeights wmap vertices).length - 1) [])
        · rw [if_pos hc4] at hx
          have hxe := List.mem_singleton.mp hx
          refine Or.inr ⟨_, hxe, ?_⟩
          simp only [List.length_append, List.length_dropLast, List.length_cons,
            List.length_nil]
          omega
        · rw [if_neg hc4] at hx
          have hxe := List.mem_singleton.mp hx
          refine Or.inr ⟨_, hxe, ?_⟩
          simp only [List.length_cons, List.length_map, List.length_tail]
          omega

/-- Every trace entry appended by the per-vertex measurement callbacks is
either an evaluator failure or an entry of the main logic. -/
theorem cbFold_entries {ε : Type} (measureE : List ℚ → Except ε ℚ) (a g r s : ℚ)
    (vertices : List (List ℚ)) (P : Except ε (List (List ℚ)) → Prop)
    (hPe : ∀ e, (∃ v, measureE v = Except.error e) → P (Except.error e))
    (hPm : ∀ wmap, ∀ x ∈ cbMain measureE a g r s vertices wmap, P x) :
    ∀ (xs : List (List ℚ)) (st : CBState ε), (∀ x ∈ st.trace, P x) →
      ∀ x ∈ (xs.foldl (cbStep measureE a g r s vertices) st).trace, P x := by
  intro xs
  induction xs with
  | nil =>
    intro st hst x hx
    rw [List.foldl_nil] at hx
    exact hst x hx
  | cons y t ih =>
    intro st hst x hx
    rw [List.foldl_cons] at hx
    refine ih (cbStep measureE a g r s vertices st y) ?_ x hx
    intro z hz
    unfold cbStep at hz
    cases hy : measureE y with
    | error e =>
      simp only [hy] at hz
      rcases List.mem_append.mp hz with h1 | h2
      · exact hst z h1
      · have : z = Except.error e := by simpa using h2
        rw [this]
        exact hPe e ⟨y, hy⟩
    | ok w =>
      simp only [hy] at hz
      by_cases hl : st.len - 1 = 0
      · rw [if_pos hl] at hz
        rcases List.mem_append.mp hz with h1 | h2
        · exact hst z h1
        · exact hPm _ z h2
      · rw [if_neg hl] at hz
        exact hst z hz

/-- The trace of completion-callback failures that the initial measurements of
`nmCallback` produce: one entry per failing input vertex, in order. -/
def errorsOf {ε : Type} (measureE : List ℚ → Except ε ℚ) :
    List (List ℚ) → List (Except ε (List (List ℚ)))
  | [] => []
  | v :: vs =>
    match measureE v with
    | Except.error e => Except.error e :: errorsOf measureE vs
    | Except.ok _ => errorsOf measureE vs

/-- There are exactly as many initial failure deliveries as failing vertices. -/
theorem errorsOf_length {ε : Type} (measureE : List ℚ → Except ε ℚ) (l : List (List ℚ)) :
    (errorsOf measureE l).length = (l.filter (fun v => isError (measureE v))).length := by
  induction l with
  | nil => rfl
  | cons x t ih =>
    cases hx : measureE x with
    | error e => simp [errorsOf, hx, List.filter_cons, isError, ih]
    | ok w => simp [errorsOf, hx, List.filter_cons, isError, ih]

/-- Every initial failure delivery is a failure. -/
theorem errorsOf_mem {ε : Type} (measureE : List ℚ → Except ε ℚ) (l : List (List ℚ)) :
    ∀ x ∈ errorsOf measureE l, ∃ e, x = Except.error e := by
  induction l with
  | nil => intro x hx; exact absurd hx (List.not_mem_nil x)
  | cons y t ih =>
    intro x hx
    cases hy : measureE y with
    | error e =>
      simp only [errorsOf, hy] at hx
      rcases List.mem_cons.mp hx with h1 | h2
      · exact ⟨e, h1⟩
      · exact ih x h2
    | ok w =>
      simp only [errorsOf, hy] at hx
      exact ih x hx

/-- While more vertices remain to succeed than the countdown allows, the fold
only accumulates the failure deliveries: the countdown never reaches zero. -/
theorem cbFold_err {ε : Type} (measureE : List ℚ → Except ε ℚ) (a g r s : ℚ)
    (vertices : List (List ℚ)) :
    ∀ (xs : List (List ℚ)) (st : CBState ε),
      List.countP (fun v => !(isError (measureE v))) xs < st.len →
      (xs.foldl (cbStep measureE a g r s vertices) st).trace
        = st.trace ++ errorsOf measureE xs := by
  intro xs
  induction xs with
  | nil =>
    intro st _
    rw [List.foldl_nil]
    simp [errorsOf]
  | cons x t ih =>
    intro st h
    rw [List.foldl_cons]
    cases hx : measureE x with
    | error e =>
      have hc : List.countP (fun v => !(isError (measureE v))) (x :: t)
          = List.countP (fun v => !(isError (measureE v))) t := by
        simp [List.countP_cons, isError, hx]
      have hstep : cbStep measureE a g r s vertices st x
          = { st with trace := st.trace ++ [Except.error e] } := by
        simp [cbStep, hx]
      rw [hstep, ih _ (by rw [← hc]; exact h)]
      simp [errorsOf, hx, List.append_assoc]
    | ok w =>
      have hc : List.countP (fun v => !(isError (measureE v))) (x :: t)
          = List.countP (fun v => !(isError (measureE v))) t + 1 := by
        simp [List.countP_cons, isError, hx]
      have hne : ¬(st.len - 1 = 0) := by omega
      have hstep : cbStep measureE a g r s vertices st x
          = ⟨st.wmap ++ [(x, w)], st.len - 1, st.trace⟩ := by
        simp [cbStep, hx, hne]
      rw [hstep, ih ⟨st.wmap ++ [(x, w)], st.len - 1, st.trace⟩ (by simp; omega)]
      simp [errorsOf, hx]

/-- With at least one failing input vertex, the countdown never reaches zero
and the completion-callback trace is exactly the initial failure deliveries. -/
theorem nmCallback_errorsOf {ε : Type} (vertices : List (List ℚ))
    (measureE : List ℚ → Except ε ℚ) (a g r s : ℚ)
    (h : 1 ≤ (vertices.filter (fun v => isError (measureE v))).length) :
    nmCallback vertices measureE a g r s = errorsOf measureE vertices := by
  have hex : ∃ v ∈ vertices, isError (measureE v) := by
    refine List.countP_pos_iff.mp ?_
    rw [List.countP_eq_length_filter]
    omega
  have hle : List.countP (fun v => !(isError (measureE v))) vertices ≤ vertices.length :=
    List.countP_le_length (fun v => !(isError (measureE v)))
  have hcount : List.countP (fun v => !(isError (measureE v))) vertices
      < vertices.length := by
    rcases hex with ⟨v0, hv0, hv0e⟩
    rcases Nat.lt_or_ge (List.countP (fun v => !(isError (measureE v))) vertices)
      vertices.length with hlt | hge
    · exact hlt
    · exfalso
      have heq : List.countP (fun v => !(isError (measureE v))) vertices
          = vertices.length := le_antisymm hle hge
      have := List.countP_eq_length.mp heq v0 hv0
      rw [hv0e] at this
      simp at this
  have heq := cbFold_err measureE a g r s vertices vertices
    ⟨[], vertices.length, []⟩ hcount
  unfold nmCallback
  rw [heq]
  simp

/-- C10: in `nmCallback` the error branch of each per-vertex measurement calls
the completion callback directly, so if the initial evaluations fail for `k ≥ 1`
of the input vertices, the completion callback is invoked exactly `k` times —
once per failing evaluation, each time with an error (so `k ≥ 2` failures mean
`k` invocations rather than exactly one) — and the countdown never reaches
zero, so no simplex is ever delivered for that invocation. -/
theorem nmCallback_initial_failures {ε : Type} (vertices : List (List ℚ))
    (measureE : List ℚ → Except ε ℚ) (a g r s : ℚ)
    (h : 1 ≤ (vertices.filter (fun v => isError (measureE v))).length) :
    nmCallback vertices measureE a g r s = errorsOf measureE vertices ∧
    (nmCallback vertices measureE a g r s).length
      = (vertices.filter (fun v => isError (measureE v))).length ∧
    (∀ x ∈ nmCallback vertices measureE a g r s, ∃ e, x = Except.error e) := by
  have hmain := nmCallback_errorsOf vertices measureE a g r s h
  exact ⟨hmain, by rw [hmain, errorsOf_length],
    by rw [hmain]; exact errorsOf_mem measureE vertices⟩

/-- Witness for `nmCallback_initial_failures`: both vertices of a two-vertex
simplex fail, so the completion callback fires twice, each time with the error. -/
theorem nmCallback_initial_failures_witness :
    (nmCallback [[0], [1]] (fun _ => (Except.error 3 : Except Nat ℚ)) 1 2 (1/2) (1/2)).length
      = (([[0], [1]] : List (List ℚ)).filter
          (fun v => isError ((fun _ => (Except.error 3 : Except Nat ℚ)) v))).length :=
  (nmCallback_initial_failures [[0], [1]] (fun _ => (Except.error 3 : Except Nat ℚ))
    1 2 (1/2) (1/2) (by decide)).2.1

/-- When every vertex succeeds, the sort's full evaluation pass succeeds. -/
theorem measureAll_ok_of_all {ε : Type} (measureE : List ℚ → Except ε ℚ)
    (l : List (List ℚ)) (hall : ∀ v ∈ l, ∃ w, measureE v = Except.ok w) :
    ∃ ws, measureAll measureE l = Except.ok ws := by
  induction l with
  | nil => exact ⟨[], rfl⟩
  | cons x t ih =>
    obtain ⟨w, hw⟩ := hall x (List.mem_cons_self x t)
    obtain ⟨ws, hws⟩ := ih (fun v hv => hall v (List.mem_cons_of_mem x hv))
    exact ⟨w :: ws, by simp [measureAll, hw, hws]⟩

/-- When every vertex succeeds, the three pivot measurements succeed and yield
exactly the weights the sort observed. -/
theorem nmE_pivots_ok {ε : Type} (vertices : List (List ℚ))
    (measureE : List ℚ → Except ε ℚ) (h2 : 2 ≤ vertices.length)
    (hall : ∀ v ∈ vertices, ∃ w, measureE v = Except.ok w) :
    measureE ((nmESorted measureE vertices).getD 0 []) =
      Except.ok (nmEwt measureE ((nmESorted measureE vertices).getD 0 [])) ∧
    measureE ((nmESorted measureE vertices).getD
        ((nmESorted measureE vertices).length - 2) []) =
      Except.ok (nmEwt measureE ((nmESorted measureE vertices).getD
        ((nmESorted measureE vertices).length - 2) [])) ∧
    measureE ((nmESorted measureE vertices).getD
        ((nmESorted measureE vertices).length - 1) []) =
      Except.ok (nmEwt measureE ((nmESorted measureE vertices).getD
        ((nmESorted measureE vertices).length - 1) [])) := by
  have hslen : (nmESorted measureE vertices).length = vertices.length :=
    (List.perm_insertionSort _ vertices).length_eq
  have hmem : ∀ i : Nat, i < (nmESorted measureE vertices).length →
      (nmESorted measureE vertices).getD i [] ∈ vertices := fun i hi =>
    (List.perm_insertionSort _ vertices).subset (getD_mem_of_lt _ i hi)
  refine ⟨?_, ?_, ?_⟩
  · obtain ⟨w, hw⟩ := hall _ (hmem 0 (by omega))
    unfold nmEwt
    rw [hw]
    rfl
  · obtain ⟨w, hw⟩ := hall _ (hmem ((nmESorted measureE vertices).length - 2) (by omega))
    unfold nmEwt
    rw [hw]
    rfl
  · obtain ⟨w, hw⟩ := hall _ (hmem ((nmESorted measureE vertices).length - 1) (by omega))
    unfold nmEwt
    rw [hw]
    rfl

/-- Propagation in the synchronous engine: with all input vertices succeeding,
a failing mirror measurement aborts the step with exactly that failure. -/
theorem nmE_mirror_error {ε : Type} (vertices : List (List ℚ))
    (measureE : List ℚ → Except ε ℚ) (a g r s : ℚ) (h2 : 2 ≤ vertices.length)
    (hall : ∀ v ∈ vertices, ∃ w, measureE v = Except.ok w) (e : ε)
    (hm : measureE (nmMirrorOf a (nmESorted measureE vertices)) = Except.error e) :
    nmE vertices measureE a g r s = Except.error e := by
  obtain ⟨ws, hma⟩ := measureAll_ok_of_all measureE vertices hall
  obtain ⟨hb, hwr, hws'⟩ := nmE_pivots_ok vertices measureE h2 hall
  unfold nmE
  simp only [hma, hb, hwr, hws', hm]

/-- Propagation in the synchronous engine: on the expansion branch, a failing
expansion measurement aborts the step with exactly that failure. -/
theorem nmE_expansion_error {ε : Type} (vertices : List (List ℚ))
    (measureE : List ℚ → Except ε ℚ) (a g r s : ℚ) (h2 : 2 ≤ vertices.length)
    (hall : ∀ v ∈ vertices, ∃ w, measureE v = Except.ok w) (mW : ℚ) (e : ε)
    (hm : measureE (nmMirrorOf a (nmESorted measureE vertices)) = Except.ok mW)
    (hg1 : ¬(nmEwt measureE ((nmESorted measureE vertices).getD 0 []) ≤ mW ∧
        mW ≤ nmEwt measureE ((nmESorted measureE vertices).getD
          ((nmESorted measureE vertices).length - 2) [])))
    (hg2 : mW < nmEwt measureE ((nmESorted measureE vertices).getD 0 []))
    (hex : measureE (nmExpansionOf a g (nmESorted measureE vertices)) = Except.error e) :
    nmE vertices measureE a g r s = Except.error e := by
  obtain ⟨ws, hma⟩ := measureAll_ok_of_all measureE vertices hall
  obtain ⟨hb, hwr, hws'⟩ := nmE_pivots_ok vertices measureE h2 hall
  unfold nmE
  simp only [hma, hb, hwr, hws', hm]
  rw [if_neg hg1, if_pos hg2]
  simp only [hex]

/-- Propagation in the synchronous engine: on the contraction branch, a failing
contraction measurement aborts the step with exactly that failure. -/
theorem nmE_contraction_error {ε : Type} (vertices : List (List ℚ))
    (measureE : List ℚ → Except ε ℚ) (a g r s : ℚ) (h2 : 2 ≤ vertices.length)
    (hall : ∀ v ∈ vertices, ∃ w, measureE v = Except.ok w) (mW : ℚ) (e : ε)
    (hm : measureE (nmMirrorOf a (nmESorted measureE vertices)) = Except.ok mW)
    (hg1 : ¬(nmEwt measureE ((nmESorted measureE vertices).getD 0 []) ≤ mW ∧
        mW ≤ nmEwt measureE ((nmESorted measureE vertices).getD
          ((nmESorted measureE vertices).length - 2) [])))
    (hg2 : ¬(mW < nmEwt measureE ((nmESorted measureE vertices).getD 0 [])))
    (hco : measureE (nmContractionOf r (nmESorted measureE vertices)) = Except.error e) :
    nmE vertices measureE a g r s = Except.error e := by
  obtain ⟨ws, hma⟩ := measureAll_ok_of_all measureE vertices hall
  obtain ⟨hb, hwr, hws'⟩ := nmE_pivots_ok vertices measureE h2 hall
  unfold nmE
  simp only [hma, hb, hwr, hws', hm]
  rw [if_neg hg1, if_neg hg2]
  simp only [hco]

/-- When every initial measurement succeeds (whatever the evaluator does
elsewhere), the fold fires the main logic on the map of observed weights. -/
theorem cbFold_ok_of_all {ε : Type} (measureE : List ℚ → Except ε ℚ) (a g r s : ℚ)
    (vertices : List (List ℚ)) :
    ∀ (xs : List (List ℚ)) (w₀ : List (List ℚ × ℚ)) (t₀ : List (Except ε (List (List ℚ)))),
      xs ≠ [] → (∀ v ∈ xs, ∃ w, measureE v = Except.ok w) →
      (xs.foldl (cbStep measureE a g r s vertices) ⟨w₀, xs.length, t₀⟩).trace
        = t₀ ++ cbMain measureE a g r s vertices
            (w₀ ++ xs.map (fun v => (v, nmEwt measureE v))) := by
  intro xs
  induction xs with
  | nil => intro w₀ t₀ hne _; exact absurd rfl hne
  | cons x t ih =>
    intro w₀ t₀ _ hall
    obtain ⟨w, hw⟩ := hall x (List.mem_cons_self x t)
    have hwx : nmEwt measureE x = w := by unfold nmEwt; rw [hw]; rfl
    rw [List.foldl_cons]
    cases t with
    | nil => simp [cbStep, hw, hwx]
    | cons y t' =>
      have hstep : cbStep measureE a g r s vertices ⟨w₀, (x :: y :: t').length, t₀⟩ x
          = ⟨w₀ ++ [(x, w)], (y :: t').length, t₀⟩ := by
        simp [cbStep, hw]
      rw [hstep, ih (w₀ ++ [(x, w)]) t₀ (List.cons_ne_nil y t')
        (fun v hv => hall v (List.mem_cons_of_mem x hv))]
      simp [List.append_assoc, hwx]

/-- When every initial measurement succeeds, the callback step is exactly the
main logic run on the full weights map. -/
theorem nmCallback_all_ok {ε : Type} (vertices : List (List ℚ))
    (measureE : List ℚ → Except ε ℚ) (a g r s : ℚ) (h : vertices ≠ [])
    (hall : ∀ v ∈ vertices, ∃ w, measureE v = Except.ok w) :
    nmCallback vertices measureE a g r s
      = cbMain measureE a g r s vertices (asyncWeights (nmEwt measureE) vertices) := by
  unfold nmCallback
  rw [cbFold_ok_of_all measureE a g r s vertices vertices [] [] h hall]
  simp only [List.nil_append]
  rfl

/-- The callback engine's sort over the observed weights map coincides with
the fallible synchronous engine's sort. -/
theorem nmESorted_eq_sortByWeights {ε : Type} (measureE : List ℚ → Except ε ℚ)
    (vertices : List (List ℚ)) :
    sortByWeights (asyncWeights (nmEwt measureE) vertices) vertices
      = nmESorted measureE vertices := by
  rw [sortByWeights_eq]
  rfl

/-- Propagation in the callback engine: a failing mirror measurement makes the
main logic deliver exactly that failure to the completion callback. -/
theorem cbMain_allok_mirror_error {ε : Type} (measureE : List ℚ → Except ε ℚ)
    (a g r s : ℚ) (vertices : List (List ℚ)) (e : ε)
    (hm : measureE (nmMirrorOf a (nmESorted measureE vertices)) = Except.error e) :
    cbMain measureE a g r s vertices (asyncWeights (nmEwt measureE) vertices)
      = [Except.error e] := by
  unfold cbMain cbMainSorted
  rw [nmESorted_eq_sortByWeights]
  simp only [hm]

/-- Propagation in the callback engine: on the expansion branch, a failing
expansion measurement makes the main logic deliver exactly that failure. -/
theorem cbMain_allok_expansion_error {ε : Type} (measureE : List ℚ → Except ε ℚ)
    (a g r s : ℚ) (vertices : List (List ℚ)) (h2 : 2 ≤ vertices.length) (mW : ℚ) (e : ε)
    (hm : measureE (nmMirrorOf a (nmESorted measureE vertices)) = Except.ok mW)
    (hg1 : ¬(nmEwt measureE ((nmESorted measureE vertices).getD 0 []) ≤ mW ∧
        mW ≤ nmEwt measureE ((nmESorted measureE vertices).getD
          ((nmESorted measureE vertices).length - 2) [])))
    (hg2 : mW < nmEwt measureE ((nmESorted measureE vertices).getD 0 []))
    (hex : measureE (nmExpansionOf a g (nmESorted measureE vertices)) = Except.error e) :
    cbMain measureE a g r s vertices (asyncWeights (nmEwt measureE) vertices)
      = [Except.error e] := by
  have hslen : (nmESorted measureE vertices).length = vertices.length :=
    (List.perm_insertionSort _ vertices).length_eq
  have hmem : ∀ i : Nat, i < (nmESorted measureE vertices).length →
      (nmESorted measureE vertices).getD i [] ∈ vertices := fun i hi =>
    (List.perm_insertionSort _ vertices).subset (getD_mem_of_lt _ i hi)
  have hw0 : asyncWt (asyncWeights (nmEwt measureE) vertices)
      ((nmESorted measureE vertices).getD 0 [])
      = nmEwt measureE ((nmESorted measureE vertices).getD 0 []) :=
    asyncWt_eq (nmEwt measureE) vertices _ (hmem 0 (by omega))
  have hw2 : asyncWt (asyncWeights (nmEwt measureE) vertices)
      ((nmESorted measureE vertices).getD ((nmESorted measureE vertices).length - 2) [])
      = nmEwt measureE ((nmESorted measureE vertices).getD
          ((nmESorted measureE vertices).length - 2) []) :=
    asyncWt_eq (nmEwt measureE) vertices _
      (hmem ((nmESorted measureE vertices).length - 2) (by omega))
  unfold cbMain cbMainSorted
  rw [nmESorted_eq_sortByWeights]
  simp only [hm]
  rw [hw0, hw2, if_neg hg1, if_pos hg2]
  simp only [hex]

/-- Propagation in the callback engine: on the contraction branch, a failing
contraction measurement makes the main logic deliver exactly that failure. -/
theorem cbMain_allok_contraction_error {ε : Type} (measureE : List ℚ → Except ε ℚ)
    (a g r s : ℚ) (vertices : List (List ℚ)) (h2 : 2 ≤ vertices.length) (mW : ℚ) (e : ε)
    (hm : measureE (nmMirrorOf a (nmESorted measureE vertices)) = Except.ok mW)
    (hg1 : ¬(nmEwt measureE ((nmESorted measureE vertices).getD 0 []) ≤ mW ∧
        mW ≤ nmEwt measureE ((nmESorted measureE vertices).getD
          ((nmESorted measureE vertices).length - 2) [])))
    (hg2 : ¬(mW < nmEwt measureE ((nmESorted measureE vertices).getD 0 [])))
    (hco : measureE (nmContractionOf r (nmESorted measureE vertices)) = Except.error e) :
    cbMain measureE a g r s vertices (asyncWeights (nmEwt measureE) vertices)
      = [Except.error e] := by
  have hslen : (nmESorted measureE vertices).length = vertices.length :=
    (List.perm_insertionSort _ vertices).length_eq
  have hmem : ∀ i : Nat, i < (nmESorted measureE vertices).length →
      (nmESorted measureE vertices).getD i [] ∈ vertices := fun i hi =>
    (List.perm_insertionSort _ vertices).subset (getD_mem_of_lt _ i hi)
  have hw0 : asyncWt (asyncWeights (nmEwt measureE) vertices)
      ((nmESorted measureE vertices).getD 0 [])
      = nmEwt measureE ((nmESorted measureE vertices).getD 0 []) :=
    asyncWt_eq (nmEwt measureE) vertices _ (hmem 0 (by omega))
  have hw2 : asyncWt (asyncWeights (nmEwt measureE) vertices)
      ((nmESorted measureE vertices).getD ((nmESorted measureE vertices).length - 2) [])
      = nmEwt measureE ((nmESorted measureE vertices).getD
          ((nmESorted measureE vertices).length - 2) []) :=
    asyncWt_eq (nmEwt measureE) vertices _
      (hmem ((nmESorted measureE vertices).length - 2) (by omega))
  unfold cbMain cbMainSorted
  rw [nmESorted_eq_sortByWeights]
  simp only [hm]
  rw [hw0, hw2, if_neg hg1, if_neg hg2]
  simp only [hco]

/-- A failing vertex's error appears among the initial failure deliveries. -/
theorem errorsOf_mem_of_error {ε : Type} (measureE : List ℚ → Except ε ℚ)
    (l : List (List ℚ)) (v : List ℚ) (hv : v ∈ l) (e : ε)
    (he : measureE v = Except.error e) :
    Except.error e ∈ errorsOf measureE l := by
  induction l with
  | nil => simp at hv
  | cons x t ih =>
    rcases List.mem_cons.mp hv with hvx | hvm
    · subst hvx
      simp only [errorsOf, he]
      exact List.mem_cons_self _ _
    · cases hx : measureE x with
      | error e' =>
        simp only [errorsOf, hx]
        exact List.mem_cons_of_mem _ (ih hvm)
      | ok w =>
        simp only [errorsOf, hx]
        exact ih hvm

/-- C9: if the evaluator fails for any vertex whose weight is required during
one step — an input vertex, the mirror, the expansion point or the contraction
point — the step propagates that failure and never delivers a partial simplex.
Synchronous engine: successful runs return a full-size simplex; a failing
input vertex always aborts the step with an evaluator failure of an input
vertex; any surfaced failure originates intact at a required evaluation point;
and when all input vertices succeed, a failing mirror — or, on the respective
branch, a failing expansion or contraction measurement — aborts the step with
exactly that failure.  Callback engine: every completion delivery is either an
evaluator failure (with no simplex) or a full-size simplex; a failing input
vertex's error is actually delivered and no simplex is ever delivered in that
case; and when all input vertices succeed, a failing mirror/expansion/
contraction measurement makes the engine deliver exactly that failure to its
completion callback. -/
theorem nm_failure_propagation {ε : Type} (vertices : List (List ℚ))
    (measureE : List ℚ → Except ε ℚ) (a g r s : ℚ) (h : 2 ≤ vertices.length) :
    (∀ out, nmE vertices measureE a g r s = Except.ok out →
      out.length = vertices.length) ∧
    ((∃ v ∈ vertices, ∃ e, measureE v = Except.error e) →
      ∃ e, nmE vertices measureE a g r s = Except.error e ∧
        ∃ u ∈ vertices, measureE u = Except.error e) ∧
    (∀ e, nmE vertices measureE a g r s = Except.error e →
      ∃ v, measureE v = Except.error e ∧
        (v ∈ vertices ∨ v = nmMirrorOf a (nmESorted measureE vertices) ∨
          v = nmExpansionOf a g (nmESorted measureE vertices) ∨
          v = nmContractionOf r (nmESorted measureE vertices))) ∧
    (∀ x ∈ nmCallback vertices measureE a g r s,
      (∃ e, x = Except.error e ∧ ∃ v, measureE v = Except.error e) ∨
      (∃ out, x = Except.ok out ∧ out.length = vertices.length)) ∧
    (∀ v ∈ vertices, ∀ e, measureE v = Except.error e →
      Except.error e ∈ nmCallback vertices measureE a g r s ∧
      ∀ x ∈ nmCallback vertices measureE a g r s, ∃ e', x = Except.error e') ∧
    ((∀ v ∈ vertices, ∃ w, measureE v = Except.ok w) →
      ∀ e, measureE (nmMirrorOf a (nmESorted measureE vertices)) = Except.error e →
        nmE vertices measureE a g r s = Except.error e ∧
        nmCallback vertices measureE a g r s = [Except.error e]) ∧
    ((∀ v ∈ vertices, ∃ w, measureE v = Except.ok w) →
      ∀ mW e, measureE (nmMirrorOf a (nmESorted measureE vertices)) = Except.ok mW →
        ¬(nmEwt measureE ((nmESorted measureE vertices).getD 0 []) ≤ mW ∧
            mW ≤ nmEwt measureE ((nmESorted measureE vertices).getD
              ((nmESorted measureE vertices).length - 2) [])) →
        mW < nmEwt measureE ((nmESorted measureE vertices).getD 0 []) →
        measureE (nmExpansionOf a g (nmESorted measureE vertices)) = Except.error e →
        nmE vertices measureE a g r s = Except.error e ∧
        nmCallback vertices measureE a g r s = [Except.error e]) ∧
    ((∀ v ∈ vertices, ∃ w, measureE v = Except.ok w) →
      ∀ mW e, measureE (nmMirrorOf a (nmESorted measureE vertices)) = Except.ok mW →
        ¬(nmEwt measureE ((nmESorted measureE vertices).getD 0 []) ≤ mW ∧
            mW ≤ nmEwt measureE ((nmESorted measureE vertices).getD
              ((nmESorted measureE vertices).length - 2) [])) →
        ¬(mW < nmEwt measureE ((nmESorted measureE vertices).getD 0 [])) →
        measureE (nmContractionOf r (nmESorted measureE vertices)) = Except.error e →
        nmE vertices measureE a g r s = Except.error e ∧
        nmCallback vertices measureE a g r s = [Except.error e]) := by
  have hne : vertices ≠ [] := List.length_pos.mp (by omega)
  refine ⟨fun out hout => nmE_ok_length vertices measureE a g r s h out hout,
    ?_, ?_, ?_, ?_, ?_, ?_, ?_⟩
  · rintro ⟨v, hv, e, he⟩
    exact nmE_error_of_input_failure vertices measureE a g r s v hv e he
  · intro e he
    exact nmE_error_source vertices measureE a g r s h e he
  · intro x hx
    unfold nmCallback at hx
    refine cbFold_entries measureE a g r s vertices
      (fun y => (∃ e, y = Except.error e ∧ ∃ v, measureE v = Except.error e) ∨
        (∃ out, y = Except.ok out ∧ out.length = vertices.length)) ?_ ?_ vertices
      ⟨[], vertices.length, []⟩ (by intro z hz; exact absurd hz (List.not_mem_nil z)) x hx
    · intro e ⟨v, hv⟩
      exact Or.inl ⟨e, rfl, v, hv⟩
    · intro wmap z hz
      exact cbMain_entries measureE a g r s vertices wmap (by omega) z hz
  · intro v hv e he
    have hf : isError (measureE v) = true := by rw [he]; rfl
    have hvf : v ∈ vertices.filter (fun u => isError (measureE u)) :=
      List.mem_filter.mpr ⟨hv, hf⟩
    have h1 : 1 ≤ (vertices.filter (fun u => isError (measureE u))).length :=
      List.length_pos_of_mem hvf
    have htr := nmCallback_errorsOf vertices measureE a g r s h1
    constructor
    · rw [htr]
      exact errorsOf_mem_of_error measureE vertices v hv e he
    · rw [htr]
      exact errorsOf_mem measureE vertices
  · intro hall e hm
    refine ⟨nmE_mirror_error vertices measureE a g r s h hall e hm, ?_⟩
    rw [nmCallback_all_ok vertices measureE a g r s hne hall]
    exact cbMain_allok_mirror_error measureE a g r s vertices e hm
  · intro hall mW e hm hg1 hg2 hex
    refine ⟨nmE_expansion_error vertices measureE a g r s h hall mW e hm hg1 hg2 hex, ?_⟩
    rw [nmCallback_all_ok vertices measureE a g r s hne hall]
    exact cbMain_allok_expansion_error measureE a g r s vertices h mW e hm hg1 hg2 hex
  · intro hall mW e hm hg1 hg2 hco
    refine ⟨nmE_contraction_error vertices measureE a g r s h hall mW e hm hg1 hg2 hco, ?_⟩
    rw [nmCallback_all_ok vertices measureE a g r s hne hall]
    exact cbMain_allok_contraction_error measureE a g r s vertices h mW e hm hg1 hg2 hco

/-- Witness for `nm_failure_propagation`: an always-failing evaluator on a
two-vertex simplex makes the synchronous step surface the evaluator failure,
and the callback engine deliver it (and only failures) to its completion
callback. -/
theorem nm_failure_propagation_witness :
    (∃ e, nmE [[0], [1]] (fun _ => (Except.error () : Except Unit ℚ)) 1 2 (1/2) (1/2)
        = Except.error e ∧
      ∃ u ∈ ([[0], [1]] : List (List ℚ)),
        (fun _ => (Except.error () : Except Unit ℚ)) u = Except.error e) ∧
    Except.error () ∈
      nmCallback [[0], [1]] (fun _ => (Except.error () : Except Unit ℚ)) 1 2 (1/2) (1/2) :=
  ⟨(nm_failure_propagation [[0], [1]] (fun _ => (Except.error () : Except Unit ℚ))
      1 2 (1/2) (1/2) (by decide)).2.1 ⟨[0], by simp, (), rfl⟩,
   ((nm_failure_propagation [[0], [1]] (fun _ => (Except.error () : Except Unit ℚ))
      1 2 (1/2) (1/2) (by decide)).2.2.2.2.1 [0] (by simp) () rfl).1⟩
